import Mathlib

/-!
Shallow embedding of the PetaStore file system (cpizano/fs_blob).

Sources embedded here:
  src/blob.h       : blob-store constants and the toy store's `Put` size check
  src/filesys.cc   : fnv32, name_to_dir_id, block structures, FSNode operations,
                     ChainBlock, GetControlBlob, finitialize/ffinalize and the
                     C-style file API (fopen/fclose/fread/fwrite/ftell/fseek/fremove)

Modelling conventions:
  * Machine integers (uint32_t/uint64_t/size_t) are modelled as `Nat`; the one
    place where unsigned wraparound is semantically load-bearing (the `delta`
    subtraction in `fwrite`) uses an explicit `% 2^64` (see `usub64`).  The
    monotonically increasing allocator counter `next_free` and the control-block
    `start` index are modelled as unbounded naturals: by the problem statement
    (src/main.cc) blob ids stay below 2^34 and file sizes below 2^40, far from
    the 64-bit overflow boundary.
  * A blob's raw bytes are modelled at the typed-block granularity used by the
    code (`BlobContent`).  All code paths access a blob either through a typed
    `Blob2Block` view (which `assert`s the block type) or as a raw data blob;
    paths on which the C++ would reinterpret bytes of one shape as another
    (possible only in states the file system itself never produces) are
    modelled as aborts (`none`), like the failed `assert`s they accompany.
  * `assert` failures, null-pointer dereferences and non-termination are all
    modelled as `none`; loops take an explicit fuel argument.  A `some` result
    is a completed API call.
-/

namespace FsBlob

/-! ## Constants (src/blob.h, src/filesys.cc) -/

def MaxBlobSize : Nat := 256 * 1024

def META_RESERVED : Nat := 1

def DIR_HEADS : Nat := 2 ^ 10

/-- Modelled from the spec: `MAX_PATH` is used by `src/filesys.cc` for the
`FileEntry::name` array but is not defined anywhere under `src/`; spec section 3
fixes it to 512 (`name[MAX_PATH=512]`). -/
def MAX_PATH : Nat := 512

def sizeofBlockHeader : Nat := 24

/-- `static_assert(sizeof(ControlBlock) == (5 * 8u))` in src/filesys.cc. -/
def sizeofControlBlock : Nat := 40

/-- `static_assert(sizeof(DirBlock) == (3 * 8u))` in src/filesys.cc. -/
def sizeofDirBlock : Nat := 24

/-- `sizeof(FileEntry)` = `char name[MAX_PATH]` + `uint64_t control_blob`. -/
def sizeofFileEntry : Nat := MAX_PATH + 8

/-- `sizeof(META_DISK)` = `char magic[16]` + `uint64_t version` + `uint64_t next_free`. -/
def sizeofMETA_DISK : Nat := 32

/-- `sizeof(ControlBlock::Record)` = `sizeof(uint64_t)`. -/
def sizeofCtrlRecord : Nat := 8

def bytes_per_ctrl_block : Nat :=
  MaxBlobSize * ((MaxBlobSize - sizeofControlBlock) / sizeofCtrlRecord)

def U32 : Nat := 2 ^ 32

def U64 : Nat := 2 ^ 64

/-- uint64 subtraction `a - b` (for `a`, `b` already reduced below `2^64`). -/
def usub64 (a b : Nat) : Nat := (a + U64 - b % U64) % U64

/-! ## FNV-1a hash (class fnv32 in src/filesys.cc) -/

def FNV_INIT : Nat := 0x811c9dc5

def FNV_32_PRIME : Nat := 0x01000193

/-- The `while (bp < be) { hval ^= *bp++; hval *= FNV_32_PRIME; }` loop of
`fnv32::operator()`, on the byte list of the input. -/
def fnv32_loop : List Nat → Nat → Nat
  | [], hval => hval
  | b :: bp, hval => fnv32_loop bp ((hval ^^^ b) * FNV_32_PRIME % U32)

/-- Bytes of a (printable-ASCII) name, as handed to `fnv32` via
`buf.c_str(), buf.length()`: the characters up to, and not including, the
terminating NUL. -/
def strBytes (s : String) : List Nat := s.data.map Char.toNat

def fnv32 (s : String) : Nat := fnv32_loop (strBytes s) FNV_INIT

/-- `name_to_dir_id` in src/filesys.cc: `(fnv32()(name) % DIR_HEADS) + META_RESERVED`. -/
def name_to_dir_id (name : String) : Nat := fnv32 name % DIR_HEADS + META_RESERVED

/-! ## Block structures (src/filesys.cc)

Every non-data block starts with a `BlockHeader` (`type`, `flags`, `prev`,
`next`).  The `type` tag is represented here by the `BlobContent` constructor;
`flags`, `prev` and `next` are carried in each typed content record. -/

/-- `struct META_DISK { char magic[16]; uint64_t version; uint64_t next_free; }`. -/
structure META_DISK where
  magic : String
  version : Nat
  next_free : Nat
deriving DecidableEq

/-- `constexpr char magic[16] = "vdisk2021-00001";` -/
def diskMagic : String := "vdisk2021-00001"

/-- `struct ControlBlock : BlockHeader { uint64_t directory; uint64_t start;
Record blobs[0]; }` with `Record = uint64_t`.  The zero-length `blobs` array is
the record array trailing the 40-byte header. -/
structure ControlBlockC where
  flags : Nat
  prev : Nat
  next : Nat
  directory : Nat
  start : Nat
  blobs : List Nat
deriving DecidableEq

/-- `struct FileEntry { char name[MAX_PATH]; uint64_t control_blob; }`.
`name` holds the stored characters up to the first NUL (the array is
zero-initialised and filled by `name.copy(entry.name, sizeof(entry.name))`). -/
structure FileEntryC where
  name : String
  control_blob : Nat
deriving DecidableEq

/-- `struct DirBlock : BlockHeader { Record entries[0]; }` with `Record = FileEntry`. -/
structure DirBlockC where
  flags : Nat
  prev : Nat
  next : Nat
  entries : List FileEntryC
deriving DecidableEq

/-- The bytes of one blob, at the typed-block granularity the code accesses
them with.  `empty` is a zero-length blob (what `GetBlob` yields on first
access); `data` is a raw data blob (file contents, no header). -/
inductive BlobContent where
  | empty
  | meta (m : META_DISK)
  | ctrl (c : ControlBlockC)
  | dir (d : DirBlockC)
  | data (bytes : List Nat)
deriving DecidableEq

/-- `blob->Get().size()` for each content shape. -/
def blobSize : BlobContent → Nat
  | .empty => 0
  | .meta _ => sizeofMETA_DISK
  | .ctrl c => sizeofControlBlock + sizeofCtrlRecord * c.blobs.length
  | .dir d => sizeofDirBlock + sizeofFileEntry * d.entries.length
  | .data bytes => bytes.length

/-- Process-wide state: the blob store's contents (every id resolves; unseen
ids are zero-length blobs) and the in-memory `g_meta` (`none` models the null
pointer before `finitialize` / after `ffinalize`). -/
structure State where
  store : Nat → BlobContent
  gmeta : Option META_DISK

/-- Pointwise store update (one blob re-`Put`). -/
def upd (store : Nat → BlobContent) (i : Nat) (v : BlobContent) : Nat → BlobContent :=
  fun j => if j = i then v else store j

/-- `struct FILE { size_t position; RefPtr<FSNode<ControlBlock>> cb; }`:
the cursor and the id the cached control-block node currently wraps. -/
structure FILE where
  position : Nat
  cb : Nat
deriving DecidableEq

/-- `uint64_t get_next_free_id() { return g_meta->next_free++; }`; `none` is
the null-pointer dereference when `g_meta` is not set. -/
def get_next_free_id (st : State) : Option (Nat × State) :=
  match st.gmeta with
  | none => none
  | some m => some (m.next_free, { st with gmeta := some { m with next_free := m.next_free + 1 } })

/-! ## Typed views (`Blob2Block`) and record search -/

/-- `Blob2Block<ControlBlock>`: the typed read, `none` when either `assert`
(size at least a header, matching block type) fails. -/
def getCtrl (st : State) (i : Nat) : Option ControlBlockC :=
  match st.store i with
  | .ctrl c => some c
  | _ => none

/-- `Blob2Block<DirBlock>`. -/
def getDir (st : State) (i : Nat) : Option DirBlockC :=
  match st.store i with
  | .dir d => some d
  | _ => none

/-- `ControlBlock::find(pos, blob_sz)`: `count = (blob_sz - sizeof(*this)) /
sizeof(Record); ix = pos / MaxBlobSize; if (ix >= count) return 0; return
blobs[ix];`.  0 doubles as the "no slot" result. -/
def ControlBlockC.find (c : ControlBlockC) (pos blob_sz : Nat) : Nat :=
  let count := (blob_sz - sizeofControlBlock) / sizeofCtrlRecord
  let ix := pos / MaxBlobSize
  if count ≤ ix then 0 else c.blobs.getD ix 0

/-- The linear scan inside `DirBlock::find`: first entry whose stored name
compares equal to `name` (C-string compare up to the NUL) yields its
`control_blob`; 0 when no entry matches. -/
def findEntry : List FileEntryC → String → Nat
  | [], _ => 0
  | e :: es, name => if e.name = name then e.control_blob else findEntry es name

/-- `DirBlock::find(name, blob_sz)`: scans the `count = (blob_sz -
sizeof(*this)) / sizeof(Record)` entries of the record array. -/
def DirBlockC.find (d : DirBlockC) (name : String) (blob_sz : Nat) : Nat :=
  findEntry (d.entries.take ((blob_sz - sizeofDirBlock) / sizeofFileEntry)) name

/-! ## FSNode operations (src/filesys.cc) -/

/-- `FSNode<ControlBlock>::maybe_init`: a zero-length blob gets a zeroed
header with `type = ControlBlock::btype` written into it. -/
def maybe_init_ctrl (st : State) (i : Nat) : State :=
  match st.store i with
  | .empty => { st with store := upd st.store i (.ctrl ⟨0, 0, 0, 0, 0, []⟩) }
  | _ => st

/-- `FSNode<DirBlock>::maybe_init`. -/
def maybe_init_dir (st : State) (i : Nat) : State :=
  match st.store i with
  | .empty => { st with store := upd st.store i (.dir ⟨0, 0, 0, []⟩) }
  | _ => st

/-- `FSNode<ControlBlock>::set_next`: read the header through the typed view
(`assert`ing the type), set `next`, write the header prefix back. -/
def ctrl_set_next (st : State) (i n : Nat) : Option State :=
  (getCtrl st i).map fun c => { st with store := upd st.store i (.ctrl { c with next := n }) }

/-- `FSNode<ControlBlock>::set_previous`. -/
def ctrl_set_prev (st : State) (i p : Nat) : Option State :=
  (getCtrl st i).map fun c => { st with store := upd st.store i (.ctrl { c with prev := p }) }

/-- `FSNode<DirBlock>::set_next`. -/
def dir_set_next (st : State) (i n : Nat) : Option State :=
  (getDir st i).map fun d => { st with store := upd st.store i (.dir { d with next := n }) }

/-- `FSNode<DirBlock>::set_previous`. -/
def dir_set_prev (st : State) (i p : Nat) : Option State :=
  (getDir st i).map fun d => { st with store := upd st.store i (.dir { d with prev := p }) }

/-- `FSNode<ControlBlock>::update_header(fn)`: `fn` sees the 40-byte header and
returns a replacement; `WriteHeader<ControlBlock>` rewrites that prefix only,
so the trailing record array is preserved (enforced here by restoring
`blobs`). -/
def ctrl_update_header (st : State) (i : Nat) (fn : ControlBlockC → ControlBlockC) :
    Option State :=
  (getCtrl st i).map fun c =>
    { st with store := upd st.store i (.ctrl { fn c with blobs := c.blobs }) }

/-- `FSNode<ControlBlock>::append_record(rec)`: refuse (`false`) when
`size() > MaxBlobSize - sizeof(rec)`; otherwise append the 8 record bytes and
re-`Put` (which succeeds: the guard keeps the blob within `MaxBlobSize`).
The C++ routine appends to the raw bytes without a type check, but every call
site has already read the node through its typed view; a call on a blob of
another shape (never produced by the file system) is modelled as an abort. -/
def ctrl_append (st : State) (i : Nat) (rec : Nat) : Option (Bool × State) :=
  match st.store i with
  | .ctrl c =>
      if MaxBlobSize - sizeofCtrlRecord < blobSize (.ctrl c) then some (false, st)
      else some (true, { st with store := upd st.store i (.ctrl { c with blobs := c.blobs ++ [rec] }) })
  | _ => none

/-- `FSNode<DirBlock>::append_record(rec)` (guard: `sizeof(FileEntry)` = 520). -/
def dir_append (st : State) (i : Nat) (rec : FileEntryC) : Option (Bool × State) :=
  match st.store i with
  | .dir d =>
      if MaxBlobSize - sizeofFileEntry < blobSize (.dir d) then some (false, st)
      else some (true, { st with store := upd st.store i (.dir { d with entries := d.entries ++ [rec] }) })
  | _ => none

/-- `ChainBlock<ControlBlock>(prev)`: allocate a fresh id, construct the node
(`maybe_init`), `new_block->set_previous(prev->id())`,
`prev->set_next(new_block->id())`, return the new node's id. -/
def ChainBlockCtrl (st : State) (prevId : Nat) : Option (Nat × State) := do
  let (n, st1) ← get_next_free_id st
  let st2 := maybe_init_ctrl st1 n
  let st3 ← ctrl_set_prev st2 n prevId
  let st4 ← ctrl_set_next st3 prevId n
  return (n, st4)

/-- `ChainBlock<DirBlock>(prev)`. -/
def ChainBlockDir (st : State) (prevId : Nat) : Option (Nat × State) := do
  let (n, st1) ← get_next_free_id st
  let st2 := maybe_init_dir st1 n
  let st3 ← dir_set_prev st2 n prevId
  let st4 ← dir_set_next st3 prevId n
  return (n, st4)

/-! ## Directory lookup (`GetControlBlob` in src/filesys.cc) -/

inductive CbAction where
  | FileMustExist
  | FileCreate
deriving DecidableEq

/-- The `do { ... } while (dir->next());` scan of `GetControlBlob`: look the
name up in the current dir-block, follow `next` otherwise.  Returns the found
control-blob id (0 = not found) together with the id the dir node ends on (the
chain's tail when nothing was found).  `none` is a failed type `assert` in
`get_ro`, or fuel exhaustion (the C++ loop spinning on a cyclic chain). -/
def gcbWalk (fuel : Nat) (st : State) (dirId : Nat) (name : String) : Option (Nat × Nat) :=
  match fuel with
  | 0 => none
  | fuel + 1 =>
    match getDir st dirId with
    | none => none
    | some d =>
      let cb_id := d.find name (blobSize (.dir d))
      if cb_id ≠ 0 then some (cb_id, dirId)
      else if d.next = 0 then some (0, dirId)
      else gcbWalk fuel st d.next name

/-- `name.copy(entry.name, sizeof(entry.name))`: at most `MAX_PATH` characters
are stored (the zero-initialised array supplies the NUL padding). -/
def strTrunc (s : String) : String := ⟨s.data.take MAX_PATH⟩

/-- `GetControlBlob(dir, name, action)`: scan the chain; on a hit wrap the
control blob in a node (whose constructor runs `maybe_init`).  Otherwise, for
`FileCreate`, allocate a control block, point its `directory` header field at
the dir node's current id, build a `FileEntry` and append it to the current
tail, chaining one new dir-block when the tail is full.  The result pairs the
control node's id (`none` = the function's null return) with the state. -/
def GetControlBlob (fuel : Nat) (st : State) (dirId : Nat) (name : String)
    (action : CbAction) : Option (Option Nat × State) := do
  let (cb_id, tailId) ← gcbWalk fuel st dirId name
  if cb_id ≠ 0 then
    return (some cb_id, maybe_init_ctrl st cb_id)
  else if action = CbAction.FileMustExist then
    return (none, st)
  else do
    let (cid, st1) ← get_next_free_id st
    let st2 := maybe_init_ctrl st1 cid
    let st3 ← ctrl_update_header st2 cid (fun hdr => { hdr with directory := tailId })
    let entry : FileEntryC := ⟨strTrunc name, cid⟩
    let (ok, st4) ← dir_append st3 tailId entry
    if ok then
      return (some cid, st4)
    else do
      let (newDir, st5) ← ChainBlockDir st4 tailId
      let (ok2, st6) ← dir_append st5 newDir entry
      if ok2 then
        return (some cid, st6)
      else
        return (none, st6)

/-! ## File API (src/filesys.cc) -/

/-- `fopen`: `CbAction action = ((mode[0] == 'w') || (mode[1] == 'w')) ?
FileCreate : FileMustExist;` — C-string indexing, reading the terminating NUL
(byte 0) when the mode string is shorter.  Hash the name, construct the dir
head node (`maybe_init`), call `GetControlBlob`; null control node means a
null `FILE`.  A fresh `FILE` starts at position 0. -/
def fopenS (fuel : Nat) (st : State) (filename mode : String) :
    Option (Option FILE × State) :=
  let action :=
    if (strBytes mode).getD 0 0 = 119 ∨ (strBytes mode).getD 1 0 = 119 then
      CbAction.FileCreate
    else CbAction.FileMustExist
  let dir_id := name_to_dir_id filename
  let st1 := maybe_init_dir st dir_id
  match GetControlBlob fuel st1 dir_id filename action with
  | none => none
  | some (none, st2) => some (none, st2)
  | some (some cid, st2) => some (some ⟨0, cid⟩, st2)

/-- `fclose`: `delete stream; return 0;`. -/
def fcloseS (_stream : Option FILE) : Int := 0

/-- `fread`: the source is the stub `return -1;` — no bytes are transferred
and the out-buffer is untouched. -/
def freadS (_st : State) (_stream : FILE) (out : List Nat) (_count : Nat) :
    Int × List Nat := (-1, out)

/-- `ftell`: the source is the stub `return -1;`. -/
def ftellS (_stream : FILE) : Int := -1

/-- `fseek`: the source is the stub `return -1;` — the cursor is not moved. -/
def fseekS (_stream : FILE) (_offset : Int) (_origin : Nat) : Int := -1

/-- `fremove`: the source is the stub `return -1;` — no directory entry is
touched (the signature reflects that the store is left unread and unwritten). -/
def fremoveS (_st : State) (_filename : String) : Int := -1

/-- Result of the `while (true)` block-location loop inside `fwrite`. -/
inductive LoopRes where
  | found (data_blob_id cbId : Nat)
  | errPrev (cbId : Nat)
deriving DecidableEq

/-- The `while (true)` loop of `fwrite`: `delta = start_ctrl_block -
cb->get_ro()->start` (uint64 arithmetic, hence `usub64`).  `delta == 0`: use
`find` on the current block, allocating and appending a fresh data-blob id
when it yields 0 (the append's result is ignored by the source).  The
`delta < 0` test is on an unsigned value — here as there it can never be
taken.  Otherwise follow `next`, or chain a new control block whose header
gets `start = previous start + 1` and the inherited `directory`. -/
def fwriteLoop (fuel : Nat) (st : State) (cbId : Nat) (start_ctrl_block offset : Nat) :
    Option (LoopRes × State) :=
  match fuel with
  | 0 => none
  | fuel + 1 =>
    match getCtrl st cbId with
    | none => none
    | some c =>
      let delta := usub64 start_ctrl_block c.start
      if delta = 0 then
        let data_blob_id := c.find offset (blobSize (.ctrl c))
        if data_blob_id = 0 then
          match get_next_free_id st with
          | none => none
          | some (nid, st1) =>
            match ctrl_append st1 cbId nid with
            | none => none
            | some (_, st2) => some (.found nid cbId, st2)
        else some (.found data_blob_id cbId, st)
      else if delta < 0 then
        if c.prev = 0 then some (.errPrev cbId, st)
        else fwriteLoop fuel st c.prev start_ctrl_block offset
      else
        if c.next ≠ 0 then fwriteLoop fuel st c.next start_ctrl_block offset
        else
          let next_start := c.start + 1
          let directory := c.directory
          match ChainBlockCtrl st cbId with
          | none => none
          | some (nid, st1) =>
            match ctrl_update_header st1 nid
                (fun hdr => { hdr with start := next_start, directory := directory }) with
            | none => none
            | some st2 => fwriteLoop fuel st2 nid start_ctrl_block offset

/-- `data.resize(offset + count)` of `fwrite`: `std::vector::resize` zero-fills
when it grows the buffer (and is only called when the blob is shorter). -/
def resizeGrow (bytes : List Nat) (n : Nat) : List Nat :=
  if bytes.length < n then bytes ++ List.replicate (n - bytes.length) 0 else bytes

/-- The final `blob->Put(data)` of `fwrite` and the cursor update: the toy
store's `Put` rejects buffers above `MaxBlobSize` (`return -2`); on success
the cursor advances by `count` and the `FILE` keeps the loop's control
block. -/
def putData (st : State) (did : Nat) (bytes2 : List Nat) (count : Nat)
    (stream : FILE) (cbId : Nat) : Option (Int × State × FILE) :=
  if MaxBlobSize < bytes2.length then
    some (-2, st, { stream with cb := cbId })
  else
    some ((count : Int), { st with store := upd st.store did (.data bytes2) },
      { stream with position := stream.position + count, cb := cbId })

/-- `fwrite(stream, buffer, count)` with `count = buffer.length`.
`start_ctrl_block = position / bytes_per_ctrl_block`, `offset = position %
MaxBlobSize`; a write that would cross the `MaxBlobSize` boundary returns `-1`
up front (`$$ fixme. support split writes.`).  After the location loop, the
data blob is read, grown to `offset + count` if shorter (`resize` zero-fills),
the buffer is spliced in at `offset`, and the blob is re-`Put` (`-2` on a
`Put` failure, i.e. a result above `MaxBlobSize`).  On success the cursor
advances by `count`.  `stream->cb` is a reference, so the `FILE` keeps
whichever control block the loop ended on.  Reading a typed block as a raw
data blob (never produced by the file system) is modelled as an abort. -/
def fwriteS (fuel : Nat) (st : State) (stream : FILE) (buffer : List Nat) :
    Option (Int × State × FILE) :=
  let count := buffer.length
  let start_ctrl_block := stream.position / bytes_per_ctrl_block
  let offset := stream.position % MaxBlobSize
  if MaxBlobSize < offset + count then
    some (-1, st, stream)
  else
    match fwriteLoop fuel st stream.cb start_ctrl_block offset with
    | none => none
    | some (.errPrev cbId, st1) => some (-1, st1, { stream with cb := cbId })
    | some (.found did cbId, st1) =>
      match st1.store did with
      | .empty => fwriteData st1 did [] offset buffer count stream cbId
      | .data bytes => fwriteData st1 did bytes offset buffer count stream cbId
      | _ => none
where
  /-- the read-resize-splice tail of `fwrite` on the data blob's bytes -/
  fwriteData (st : State) (did : Nat) (bytes : List Nat) (offset : Nat)
      (buffer : List Nat) (count : Nat) (stream : FILE) (cbId : Nat) :
      Option (Int × State × FILE) :=
    let bytes1 := resizeGrow bytes (offset + count)
    let bytes2 := bytes1.take offset ++ buffer ++ bytes1.drop (offset + count)
    putData st did bytes2 count stream cbId

/-! ## init / finalize (src/filesys.cc) -/

/-- `finitialize`: read blob 0.  Shorter than `sizeof(META_DISK)`: write a
fresh meta (`magic`, version 1, `next_free = DIR_HEADS + 1`) and load it.
Otherwise validate (`strcmp` on the magic, `assert(version == 1)`,
`assert(next_free > DIR_HEADS)`) and load the stored meta; a failed check is
an abort.  Blob 0 holding bytes of any other shape of at least meta size
cannot pass the magic comparison and is likewise an abort. -/
def finitializeS (st : State) : Option State :=
  match st.store 0 with
  | .empty =>
      let m : META_DISK := ⟨diskMagic, 1, DIR_HEADS + 1⟩
      some { st with store := upd st.store 0 (.meta m), gmeta := some m }
  | .data b =>
      if b.length < sizeofMETA_DISK then
        let m : META_DISK := ⟨diskMagic, 1, DIR_HEADS + 1⟩
        some { st with store := upd st.store 0 (.meta m), gmeta := some m }
      else none
  | .meta m =>
      if m.magic = diskMagic ∧ m.version = 1 ∧ DIR_HEADS < m.next_free then
        some { st with gmeta := some m }
      else none
  | _ => none

/-- `ffinalize`: serialise the in-memory meta into blob 0 and delete `g_meta`
(a null `g_meta` would be a null dereference). -/
def ffinalizeS (st : State) : Option State :=
  match st.gmeta with
  | none => none
  | some m => some { st with store := upd st.store 0 (.meta m), gmeta := none }

/-! ## One public API call -/

/-- One call of the public API of src/filesys.h, with its arguments (loops
carry their fuel). -/
inductive Op where
  | opFinit
  | opFfin
  | opFopen (fuel : Nat) (name mode : String)
  | opFclose (f : Option FILE)
  | opFread (f : FILE) (cnt : Nat)
  | opFwrite (fuel : Nat) (f : FILE) (buf : List Nat)
  | opFtell (f : FILE)
  | opFseek (f : FILE) (off : Int) (origin : Nat)
  | opFremove (name : String)

/-- The state after one completed API call (`none` = the call did not
complete: assertion failure, null dereference, or a loop that never exits). -/
def applyOp (op : Op) (st : State) : Option State :=
  match op with
  | .opFinit => finitializeS st
  | .opFfin => ffinalizeS st
  | .opFopen fuel name mode => (fopenS fuel st name mode).map (fun r => r.2)
  | .opFclose _ => some st
  | .opFread _ _ => some st
  | .opFwrite fuel f buf => (fwriteS fuel st f buf).map (fun r => r.2.1)
  | .opFtell _ => some st
  | .opFseek _ _ _ => some st
  | .opFremove _ => some st

/-! ## The doubly-linked-chain invariant (spec section 3, claim C7)

`StoreInv` states the chain invariant over the whole blob store:
`linked` is the spec's "if X.next = Y then Y.prev = X, and conversely";
`headsPrev` and `ctrlHeadsPrev` say that chain heads (the fixed directory
heads, and the control blocks referenced by directory entries) have `prev = 0`;
`nextIncr`/`prevDecr` state that links always point from older to newer blobs
(in allocation order), so every chain is finite and ends in a tail with
`next = 0`.  The remaining fields are the supporting allocator facts the
induction needs: links and record ids stay below the `next_free` counter, ids
at or above it are still zero-length blobs, and links resolve to blocks. -/

/-- The blob holds a chained (header-carrying) block: a Control or Dir block. -/
def isBlock : BlobContent → Prop
  | .ctrl _ => True
  | .dir _ => True
  | _ => False

/-- The header's `prev` field (0 for headerless content). -/
def pOf : BlobContent → Nat
  | .ctrl c => c.prev
  | .dir d => d.prev
  | _ => 0

/-- The header's `next` field (0 for headerless content). -/
def nOf : BlobContent → Nat
  | .ctrl c => c.next
  | .dir d => d.next
  | _ => 0

/-- The blob ids stored in a block's record array (`blobs` of a control
block, the `control_blob` fields of a dir block). -/
def entryIds : BlobContent → List Nat
  | .ctrl c => c.blobs
  | .dir d => d.entries.map (fun e => e.control_blob)
  | _ => []

/-- The `FileEntry` records of a dir block. -/
def dirEntries : BlobContent → List FileEntryC
  | .dir d => d.entries
  | _ => []

structure StoreInv (nf : Nat) (store : Nat → BlobContent) : Prop where
  linked : ∀ x y, x ≠ 0 → y ≠ 0 → isBlock (store x) → isBlock (store y) →
    (nOf (store x) = y ↔ pOf (store y) = x)
  closedNext : ∀ x, isBlock (store x) → nOf (store x) ≠ 0 → isBlock (store (nOf (store x)))
  closedPrev : ∀ x, isBlock (store x) → pOf (store x) ≠ 0 → isBlock (store (pOf (store x)))
  bounded : ∀ x, isBlock (store x) → x < nf
  boundedN : ∀ x, isBlock (store x) → nOf (store x) < nf
  boundedP : ∀ x, isBlock (store x) → pOf (store x) < nf
  nextIncr : ∀ x, isBlock (store x) → nOf (store x) ≠ 0 → x < nOf (store x)
  prevDecr : ∀ x, isBlock (store x) → pOf (store x) ≠ 0 → pOf (store x) < x
  entsBdd : ∀ x j, j ∈ entryIds (store x) → j < nf
  highEmpty : ∀ i, nf ≤ i → store i = .empty
  headsPrev : ∀ i, i ≤ DIR_HEADS → pOf (store i) = 0
  ctrlHeadsPrev : ∀ x e, e ∈ dirEntries (store x) → pOf (store e.control_blob) = 0

/-! ## The state-level invariant -/

/-- The allocation bound governing a state: the in-memory `next_free` when the
system is initialised, otherwise the value the next `finitialize` would load
from blob 0 (`DIR_HEADS + 1` when blob 0 is still shorter than the meta
struct).  `none` when blob 0 holds undecodable bytes (then `finitialize` can
only abort). -/
def stateNF (st : State) : Option Nat :=
  match st.gmeta with
  | some m => some m.next_free
  | none =>
    match st.store 0 with
    | .meta m => some m.next_free
    | .empty => some (DIR_HEADS + 1)
    | .data b => if b.length < sizeofMETA_DISK then some (DIR_HEADS + 1) else none
    | _ => none

/-- Claim C7's invariant, tied to the governing allocation bound. -/
def Inv (st : State) : Prop :=
  ∀ nf, stateNF st = some nf → DIR_HEADS + 1 ≤ nf ∧ StoreInv nf st.store

/-- The working form of the invariant inside an operation: the governing
bound is known. -/
def StepInv (st : State) (nf : Nat) : Prop :=
  stateNF st = some nf ∧ DIR_HEADS + 1 ≤ nf ∧ StoreInv nf st.store

/-- Per-call side condition from the spec's lifecycle (section 5): process
state is created at init and destroyed at finalize, so `finitialize` runs
with `g_meta` not yet set.  Every other call carries no condition. -/
def opPre : Op → State → Prop
  | .opFinit, st => st.gmeta = none
  | _, _ => True

/-! ## Concrete states used to evaluate the claims -/

/-- A live meta: allocation counter one past the directory-head range. -/
def mA : META_DISK := ⟨diskMagic, 1, 1025⟩

/-- One control block (for directory 5, `start = 0`, no data blobs yet). -/
def stC1 : State := ⟨fun i => if i = 77 then .ctrl ⟨0, 0, 0, 5, 0, []⟩ else .empty, some mA⟩

/-- `stC1` after `fwrite` of two bytes at position 0: blob 1025 was allocated,
recorded in the control block, and holds the two bytes. -/
def stC1post : State :=
  ⟨upd (upd stC1.store 77 (.ctrl ⟨0, 0, 0, 5, 0, [1025]⟩)) 1025 (.data [104, 105]),
   some ⟨diskMagic, 1, 1026⟩⟩

/-- One control block whose slot 0 records data blob 90 (one byte stored). -/
def stC3 : State :=
  ⟨fun i => if i = 77 then .ctrl ⟨0, 0, 0, 5, 0, [90]⟩ else if i = 90 then .data [5] else .empty,
   some mA⟩

/-- `stC3` after `fwrite` of one byte at position `MaxBlobSize`: the code
overwrote blob 90 — the slot-0 blob holding position 0 — in place. -/
def stC3post : State := ⟨upd stC3.store 90 (.data [9]), some mA⟩

/-- A two-block control chain: block 77 (`start = 0`) ↔ block 78 (`start = 1`).
A `FILE` caching block 78 with cursor 0 must walk `prev` to reach block 77. -/
def stC4 : State :=
  ⟨fun i => if i = 77 then .ctrl ⟨0, 0, 78, 5, 0, []⟩
    else if i = 78 then .ctrl ⟨0, 77, 0, 5, 1, []⟩ else .empty,
   some mA⟩

/-- The pristine state: nothing stored, system not initialised. -/
def stEmpty : State := ⟨fun _ => .empty, none⟩

/-- The meta a first-ever `finitialize` writes. -/
def mFresh : META_DISK := ⟨diskMagic, 1, DIR_HEADS + 1⟩

/-- The state `finitialize` produces from `stEmpty`. -/
def stFresh : State := ⟨upd (fun _ => .empty) 0 (.meta mFresh), some mFresh⟩

/-- An initialised state with one empty directory-head block at id 5. -/
def stW10 : State := ⟨fun i => if i = 5 then .dir ⟨0, 0, 0, []⟩ else .empty, some mA⟩

/-- `stW10` after `GetControlBlob`-create of `"a"`: control block 1025 was
allocated (pointing back at directory 5) and entered into dir-block 5. -/
def stW10post : State :=
  ⟨upd (upd (upd stW10.store 1025 (.ctrl ⟨0, 0, 0, 0, 0, []⟩)) 1025 (.ctrl ⟨0, 0, 0, 5, 0, []⟩))
     5 (.dir ⟨0, 0, 0, [⟨strTrunc "a", 1025⟩]⟩),
   some ⟨diskMagic, 1, 1026⟩⟩

/-- A live meta with a distinctive allocation counter. -/
def mW : META_DISK := ⟨diskMagic, 1, 2000⟩

/-- An initialised state carrying `mW` (no blobs written yet). -/
def stW8 : State := ⟨fun _ => .empty, some mW⟩

/-- `stW8` after `ffinalize`: meta serialised into blob 0, `g_meta` deleted. -/
def stW8fin : State := ⟨upd (fun _ => .empty) 0 (.meta mW), none⟩

/-- A file name present in its directory chain. -/
def nameC9 : String := "abcdef.txt"

/-- A dir-block holding one entry: `nameC9` owned by control blob 1500. -/
def dC9 : DirBlockC := ⟨0, 0, 0, [⟨nameC9, 1500⟩]⟩

theorem upd_self (store : Nat → BlobContent) (i : Nat) (v : BlobContent) :
    upd store i v i = v := by simp [upd]

theorem upd_ne (store : Nat → BlobContent) (i j : Nat) (v : BlobContent) (h : j ≠ i) :
    upd store i v j = store j := by simp [upd, h]

/-- `next_free` only grows: the invariant is monotone in the bound. -/
theorem StoreInv.weaken {nf nf' : Nat} {store : Nat → BlobContent}
    (h : StoreInv nf store) (hle : nf ≤ nf') : StoreInv nf' store where
  linked := h.linked
  closedNext := h.closedNext
  closedPrev := h.closedPrev
  bounded x hx := lt_of_lt_of_le (h.bounded x hx) hle
  boundedN x hx := lt_of_lt_of_le (h.boundedN x hx) hle
  boundedP x hx := lt_of_lt_of_le (h.boundedP x hx) hle
  nextIncr := h.nextIncr
  prevDecr := h.prevDecr
  entsBdd x j hj := lt_of_lt_of_le (h.entsBdd x j hj) hle
  highEmpty i hi := h.highEmpty i (le_trans hle hi)
  headsPrev := h.headsPrev
  ctrlHeadsPrev := h.ctrlHeadsPrev

/-- Writing the in-memory meta into blob 0 (`finitialize` fresh-init branch,
`ffinalize`) leaves the chain invariant intact: blob 0 never participates in a
chain (`prev`/`next` of value 0 mean "none", and the `linked` clauses range
over nonzero ids). -/
theorem StoreInv.updMeta {nf : Nat} {store : Nat → BlobContent}
    (h : StoreInv nf store) (h0 : 0 < nf) (m : META_DISK) :
    StoreInv nf (upd store 0 (.meta m)) := by
  have hu : ∀ j, j ≠ 0 → upd store 0 (.meta m) j = store j := fun j hj => upd_ne store 0 j _ hj
  refine ⟨?_, ?_, ?_, ?_, ?_, ?_, ?_, ?_, ?_, ?_, ?_, ?_⟩
  · intro x y hx0 hy0 hbx hby
    rw [hu x hx0] at hbx ⊢
    rw [hu y hy0] at hby ⊢
    exact h.linked x y hx0 hy0 hbx hby
  · intro x hbx hnx
    by_cases hx0 : x = 0
    · subst hx0; simp [upd_self, isBlock] at hbx
    · rw [hu x hx0] at hbx hnx ⊢
      rw [hu _ hnx]
      exact h.closedNext x hbx hnx
  · intro x hbx hpx
    by_cases hx0 : x = 0
    · subst hx0; simp [upd_self, isBlock] at hbx
    · rw [hu x hx0] at hbx hpx ⊢
      rw [hu _ hpx]
      exact h.closedPrev x hbx hpx
  · intro x hbx
    by_cases hx0 : x = 0
    · subst hx0; simp [upd_self, isBlock] at hbx
    · rw [hu x hx0] at hbx; exact h.bounded x hbx
  · intro x hbx
    by_cases hx0 : x = 0
    · subst hx0; simp [upd_self, isBlock] at hbx
    · rw [hu x hx0] at hbx ⊢; exact h.boundedN x hbx
  · intro x hbx
    by_cases hx0 : x = 0
    · subst hx0; simp [upd_self, isBlock] at hbx
    · rw [hu x hx0] at hbx ⊢; exact h.boundedP x hbx
  · intro x hbx
    by_cases hx0 : x = 0
    · subst hx0; simp [upd_self, isBlock] at hbx
    · rw [hu x hx0] at hbx ⊢; exact h.nextIncr x hbx
  · intro x hbx
    by_cases hx0 : x = 0
    · subst hx0; simp [upd_self, isBlock] at hbx
    · rw [hu x hx0] at hbx ⊢; exact h.prevDecr x hbx
  · intro x j hj
    by_cases hx0 : x = 0
    · subst hx0; simp [upd_self, entryIds] at hj
    · rw [hu x hx0] at hj; exact h.entsBdd x j hj
  · intro i hi
    have : i ≠ 0 := by omega
    rw [hu i this]; exact h.highEmpty i hi
  · intro i hi
    by_cases hx0 : i = 0
    · subst hx0; simp [upd_self, pOf]
    · rw [hu i hx0]; exact h.headsPrev i hi
  · intro x e he
    by_cases hx0 : x = 0
    · subst hx0; simp [upd_self, dirEntries] at he
    · rw [hu x hx0] at he
      by_cases he0 : e.control_blob = 0
      · rw [he0, upd_self]; simp [pOf]
      · rw [hu _ he0]; exact h.ctrlHeadsPrev x e he

/-- Replacing blob `i` with content of the same header shape (same
block-ness, same `prev`, same `next`) preserves the chain invariant, provided
any record ids of the new content are below the bound and any new directory
entries keep referencing prev-0 blobs.  This covers `append_record`,
`update_header` calls that do not touch `prev`/`next`, and raw data-blob
writes (where both sides are headerless). -/
theorem StoreInv.updHdrSame {nf : Nat} {store : Nat → BlobContent}
    (h : StoreInv nf store) (i : Nat) (v : BlobContent)
    (hb : isBlock v ↔ isBlock (store i))
    (hp : pOf v = pOf (store i)) (hn : nOf v = nOf (store i))
    (he : ∀ j, j ∈ entryIds v → j < nf)
    (hd : ∀ e, e ∈ dirEntries v → pOf (store e.control_blob) = 0)
    (hi : i < nf) : StoreInv nf (upd store i v) := by
  have hB : ∀ j, isBlock (upd store i v j) ↔ isBlock (store j) := by
    intro j; by_cases hj : j = i
    · subst hj; rw [upd_self]; exact hb
    · rw [upd_ne store i j v hj]
  have hP : ∀ j, pOf (upd store i v j) = pOf (store j) := by
    intro j; by_cases hj : j = i
    · subst hj; rw [upd_self]; exact hp
    · rw [upd_ne store i j v hj]
  have hN : ∀ j, nOf (upd store i v j) = nOf (store j) := by
    intro j; by_cases hj : j = i
    · subst hj; rw [upd_self]; exact hn
    · rw [upd_ne store i j v hj]
  refine ⟨?_, ?_, ?_, ?_, ?_, ?_, ?_, ?_, ?_, ?_, ?_, ?_⟩
  · intro x y hx0 hy0 hbx hby
    rw [hB] at hbx hby
    rw [hN, hP]
    exact h.linked x y hx0 hy0 hbx hby
  · intro x hbx hnx
    rw [hB] at hbx ⊢
    rw [hN] at hnx ⊢
    exact h.closedNext x hbx hnx
  · intro x hbx hpx
    rw [hB] at hbx ⊢
    rw [hP] at hpx ⊢
    exact h.closedPrev x hbx hpx
  · intro x hbx; rw [hB] at hbx; exact h.bounded x hbx
  · intro x hbx; rw [hB] at hbx; rw [hN]; exact h.boundedN x hbx
  · intro x hbx; rw [hB] at hbx; rw [hP]; exact h.boundedP x hbx
  · intro x hbx hnx
    rw [hB] at hbx; rw [hN] at hnx ⊢
    exact h.nextIncr x hbx hnx
  · intro x hbx hpx
    rw [hB] at hbx; rw [hP] at hpx ⊢
    exact h.prevDecr x hbx hpx
  · intro x j hj
    by_cases hx : x = i
    · subst hx; rw [upd_self] at hj; exact he j hj
    · rw [upd_ne store i x v hx] at hj; exact h.entsBdd x j hj
  · intro j hj
    by_cases hx : j = i
    · subst hx; omega
    · rw [upd_ne store i j v hx]; exact h.highEmpty j hj
  · intro j hj
    rw [hP]; exact h.headsPrev j hj
  · intro x e he'
    rw [hP]
    by_cases hx : x = i
    · subst hx; rw [upd_self] at he'; exact hd e he'
    · rw [upd_ne store i x v hx] at he'; exact h.ctrlHeadsPrev x e he'

/-- `maybe_init` on a still-empty blob below the allocation bound writes a
lone zeroed block (`prev = next = 0`, no records): a one-element chain, which
no existing block can reference (links resolve to blocks, and the blob was
empty). -/
theorem StoreInv.updLone {nf : Nat} {store : Nat → BlobContent}
    (h : StoreInv nf store) (i : Nat) (v : BlobContent)
    (hemp : store i = .empty) (hbv : isBlock v)
    (hp : pOf v = 0) (hn : nOf v = 0)
    (hev : entryIds v = []) (hdv : dirEntries v = [])
    (hi0 : i ≠ 0) (hi : i < nf) : StoreInv nf (upd store i v) := by
  have noNext : ∀ x, isBlock (store x) → nOf (store x) ≠ i := by
    intro x hbx hcon
    have := h.closedNext x hbx (by rw [hcon]; exact hi0)
    rw [hcon, hemp] at this
    simp [isBlock] at this
  have noPrev : ∀ x, isBlock (store x) → pOf (store x) ≠ i := by
    intro x hbx hcon
    have := h.closedPrev x hbx (by rw [hcon]; exact hi0)
    rw [hcon, hemp] at this
    simp [isBlock] at this
  refine ⟨?_, ?_, ?_, ?_, ?_, ?_, ?_, ?_, ?_, ?_, ?_, ?_⟩
  · intro x y hx0 hy0 hbx hby
    by_cases hx : x = i
    · subst hx
      rw [upd_self] at hbx ⊢
      rw [hn]
      by_cases hy : y = x
      · subst hy
        rw [upd_self, hp]
      · rw [upd_ne store x y v hy] at hby ⊢
        constructor
        · intro h0; exact absurd h0.symm hy0
        · intro h0; exact absurd h0 (noPrev y hby)
    · rw [upd_ne store i x v hx] at hbx ⊢
      by_cases hy : y = i
      · subst hy
        rw [upd_self] at hby ⊢
        rw [hp]
        constructor
        · intro h0; exact absurd h0 (noNext x hbx)
        · intro h0; exact absurd h0.symm hx0
      · rw [upd_ne store i y v hy] at hby ⊢
        exact h.linked x y hx0 hy0 hbx hby
  · intro x hbx hnx
    by_cases hx : x = i
    · subst hx; rw [upd_self, hn] at hnx; exact absurd rfl hnx
    · rw [upd_ne store i x v hx] at hbx hnx ⊢
      by_cases ht : nOf (store x) = i
      · rw [ht, upd_self]; exact hbv
      · rw [upd_ne store i _ v ht]; exact h.closedNext x hbx hnx
  · intro x hbx hpx
    by_cases hx : x = i
    · subst hx; rw [upd_self, hp] at hpx; exact absurd rfl hpx
    · rw [upd_ne store i x v hx] at hbx hpx ⊢
      by_cases ht : pOf (store x) = i
      · rw [ht, upd_self]; exact hbv
      · rw [upd_ne store i _ v ht]; exact h.closedPrev x hbx hpx
  · intro x hbx
    by_cases hx : x = i
    · subst hx; exact hi
    · rw [upd_ne store i x v hx] at hbx; exact h.bounded x hbx
  · intro x hbx
    by_cases hx : x = i
    · subst hx; rw [upd_self, hn]; omega
    · rw [upd_ne store i x v hx] at hbx ⊢; exact h.boundedN x hbx
  · intro x hbx
    by_cases hx : x = i
    · subst hx; rw [upd_self, hp]; omega
    · rw [upd_ne store i x v hx] at hbx ⊢; exact h.boundedP x hbx
  · intro x hbx hnx
    by_cases hx : x = i
    · subst hx; rw [upd_self, hn] at hnx; exact absurd rfl hnx
    · rw [upd_ne store i x v hx] at hbx hnx ⊢; exact h.nextIncr x hbx hnx
  · intro x hbx hpx
    by_cases hx : x = i
    · subst hx; rw [upd_self, hp] at hpx; exact absurd rfl hpx
    · rw [upd_ne store i x v hx] at hbx hpx ⊢; exact h.prevDecr x hbx hpx
  · intro x j hj
    by_cases hx : x = i
    · subst hx; rw [upd_self, hev] at hj; exact absurd hj (List.not_mem_nil j)
    · rw [upd_ne store i x v hx] at hj; exact h.entsBdd x j hj
  · intro j hj
    by_cases hx : j = i
    · subst hx; omega
    · rw [upd_ne store i j v hx]; exact h.highEmpty j hj
  · intro j hj
    by_cases hx : j = i
    · subst hx; rw [upd_self]; exact hp
    · rw [upd_ne store i j v hx]; exact h.headsPrev j hj
  · intro x e he
    by_cases hx : x = i
    · subst hx; rw [upd_self, hdv] at he; exact absurd he (List.not_mem_nil e)
    · rw [upd_ne store i x v hx] at he
      by_cases ht : e.control_blob = i
      · rw [ht, upd_self]; exact hp
      · rw [upd_ne store i _ v ht]; exact h.ctrlHeadsPrev x e he

theorem control_blob_mem_entryIds {b : BlobContent} {e : FileEntryC}
    (he : e ∈ dirEntries b) : e.control_blob ∈ entryIds b := by
  cases b <;> simp [dirEntries, entryIds] at he ⊢
  exact ⟨e, he, rfl⟩

/-- The net effect of `ChainBlock` on the store: the freshly allocated blob
`nf` becomes a lone-tail block (`prev = t`, `next = 0`, no records) and the
old tail `t` (which had `next = 0`) gets `next = nf`.  The chain invariant is
preserved at the incremented bound. -/
theorem StoreInv.chain {nf : Nat} {store : Nat → BlobContent}
    (h : StoreInv nf store) (t : Nat) (vT vN : BlobContent)
    (hbt : isBlock (store t)) (htn : nOf (store t) = 0)
    (hbT : isBlock vT) (hpT : pOf vT = pOf (store t)) (hnT : nOf vT = nf)
    (heT : entryIds vT = entryIds (store t)) (hdT : dirEntries vT = dirEntries (store t))
    (hbN : isBlock vN) (hpN : pOf vN = t) (hnN : nOf vN = 0)
    (heN : entryIds vN = []) (hdN : dirEntries vN = [])
    (hnfBig : DIR_HEADS < nf) :
    StoreInv (nf + 1) (upd (upd store nf vN) t vT) := by
  have htnf : t < nf := h.bounded t hbt
  have htne : t ≠ nf := Nat.ne_of_lt htnf
  have hnf0 : nf ≠ 0 := by
    have : DIR_HEADS = 1024 := by decide
    omega
  have acc : ∀ j, upd (upd store nf vN) t vT j =
      if j = t then vT else if j = nf then vN else store j := by
    intro j; simp only [upd]
  refine ⟨?_, ?_, ?_, ?_, ?_, ?_, ?_, ?_, ?_, ?_, ?_, ?_⟩
  · intro x y hx0 hy0 hbx hby
    rw [acc x] at hbx
    rw [acc y] at hby
    rw [acc x, acc y]
    by_cases hxt : x = t
    · -- the old tail: its one (new) next link is the fresh block
      rw [if_pos hxt] at hbx ⊢
      by_cases hyn : y = nf
      · rw [if_neg (by omega : ¬ y = t), if_pos hyn]
        exact iff_of_true (by rw [hnT, hyn]) (by rw [hpN, hxt])
      · by_cases hyt : y = t
        · rw [if_pos hyt]
          refine iff_of_false (fun hc => ?_) (fun hc => ?_)
          · rw [hnT] at hc; omega
          · rw [hpT] at hc
            by_cases hq : pOf (store t) = 0
            · omega
            · have := h.prevDecr t hbt hq; omega
        · rw [if_neg hyt, if_neg hyn] at hby ⊢
          refine iff_of_false (fun hc => ?_) (fun hc => ?_)
          · rw [hnT] at hc
            have := h.bounded y hby; omega
          · have hpre := h.linked t y (by omega) hy0 hbt hby
            have h2 := hpre.mpr (by rw [← hxt]; exact hc)
            rw [htn] at h2
            exact hy0 h2.symm
    · rw [if_neg hxt] at hbx ⊢
      by_cases hxn : x = nf
      · -- the fresh block: next = 0, and no old block can reference it
        rw [if_pos hxn] at hbx ⊢
        refine iff_of_false (fun hc => ?_) (fun hc => ?_)
        · rw [hnN] at hc; omega
        · by_cases hyt : y = t
          · rw [if_pos hyt, hpT] at hc
            have := h.boundedP t hbt; omega
          · by_cases hyn : y = nf
            · rw [if_neg hyt, if_pos hyn, hpN] at hc; omega
            · rw [if_neg hyt, if_neg hyn] at hc hby
              have := h.boundedP y hby; omega
      · rw [if_neg hxn] at hbx ⊢
        by_cases hyt : y = t
        · rw [if_pos hyt, hpT, hyt]
          exact h.linked x t hx0 (by omega) hbx hbt
        · by_cases hyn : y = nf
          · rw [if_neg hyt, if_pos hyn] at hby ⊢
            refine iff_of_false (fun hc => ?_) (fun hc => ?_)
            · have := h.boundedN x hbx; omega
            · rw [hpN] at hc; omega
          · rw [if_neg hyt, if_neg hyn] at hby ⊢
            exact h.linked x y hx0 hy0 hbx hby
  · intro x hbx hnx
    rw [acc x] at hbx hnx ⊢
    by_cases hxt : x = t
    · rw [if_pos hxt] at hbx hnx ⊢
      rw [hnT, acc nf, if_neg (Ne.symm htne), if_pos rfl]
      exact hbN
    · rw [if_neg hxt] at hbx hnx ⊢
      by_cases hxn : x = nf
      · rw [if_pos hxn] at hnx
        rw [hnN] at hnx
        exact absurd rfl hnx
      · rw [if_neg hxn] at hbx hnx ⊢
        have hu : nOf (store x) < nf := h.boundedN x hbx
        rw [acc (nOf (store x))]
        by_cases hut : nOf (store x) = t
        · rw [if_pos hut]; exact hbT
        · rw [if_neg hut, if_neg (Nat.ne_of_lt hu)]
          exact h.closedNext x hbx hnx
  · intro x hbx hpx
    rw [acc x] at hbx hpx ⊢
    by_cases hxt : x = t
    · rw [if_pos hxt] at hbx hpx ⊢
      rw [hpT] at hpx ⊢
      have hplt : pOf (store t) < t := h.prevDecr t hbt hpx
      have hpnf : pOf (store t) < nf := h.boundedP t hbt
      rw [acc (pOf (store t)), if_neg (Nat.ne_of_lt hplt), if_neg (Nat.ne_of_lt hpnf)]
      exact h.closedPrev t hbt hpx
    · rw [if_neg hxt] at hbx hpx ⊢
      by_cases hxn : x = nf
      · rw [if_pos hxn] at hpx ⊢
        rw [hpN] at hpx ⊢
        rw [acc t, if_pos rfl]
        exact hbT
      · rw [if_neg hxn] at hbx hpx ⊢
        have hu : pOf (store x) < nf := h.boundedP x hbx
        rw [acc (pOf (store x))]
        by_cases hut : pOf (store x) = t
        · rw [if_pos hut]; exact hbT
        · rw [if_neg hut, if_neg (Nat.ne_of_lt hu)]
          exact h.closedPrev x hbx hpx
  · intro x hbx
    rw [acc x] at hbx
    by_cases hxt : x = t
    · omega
    · rw [if_neg hxt] at hbx
      by_cases hxn : x = nf
      · omega
      · rw [if_neg hxn] at hbx
        have := h.bounded x hbx; omega
  · intro x hbx
    rw [acc x] at hbx ⊢
    by_cases hxt : x = t
    · rw [if_pos hxt] at hbx ⊢
      rw [hnT]; omega
    · rw [if_neg hxt] at hbx ⊢
      by_cases hxn : x = nf
      · rw [if_pos hxn] at hbx ⊢
        rw [hnN]; omega
      · rw [if_neg hxn] at hbx ⊢
        have := h.boundedN x hbx; omega
  · intro x hbx
    rw [acc x] at hbx ⊢
    by_cases hxt : x = t
    · rw [if_pos hxt] at hbx ⊢
      rw [hpT]
      have := h.boundedP t hbt; omega
    · rw [if_neg hxt] at hbx ⊢
      by_cases hxn : x = nf
      · rw [if_pos hxn] at hbx ⊢
        rw [hpN]; omega
      · rw [if_neg hxn] at hbx ⊢
        have := h.boundedP x hbx; omega
  · intro x hbx hnx
    rw [acc x] at hbx hnx ⊢
    by_cases hxt : x = t
    · rw [if_pos hxt] at hbx hnx ⊢
      rw [hnT]; omega
    · rw [if_neg hxt] at hbx hnx ⊢
      by_cases hxn : x = nf
      · rw [if_pos hxn] at hnx
        rw [hnN] at hnx
        exact absurd rfl hnx
      · rw [if_neg hxn] at hbx hnx ⊢
        exact h.nextIncr x hbx hnx
  · intro x hbx hpx
    rw [acc x] at hbx hpx ⊢
    by_cases hxt : x = t
    · rw [if_pos hxt] at hbx hpx ⊢
      rw [hpT] at hpx ⊢
      have := h.prevDecr t hbt hpx; omega
    · rw [if_neg hxt] at hbx hpx ⊢
      by_cases hxn : x = nf
      · rw [if_pos hxn] at hpx ⊢
        rw [hpN] at hpx ⊢
        omega
      · rw [if_neg hxn] at hbx hpx ⊢
        exact h.prevDecr x hbx hpx
  · intro x j hj
    rw [acc x] at hj
    by_cases hxt : x = t
    · rw [if_pos hxt, heT] at hj
      have := h.entsBdd t j hj; omega
    · rw [if_neg hxt] at hj
      by_cases hxn : x = nf
      · rw [if_pos hxn, heN] at hj
        exact absurd hj (List.not_mem_nil j)
      · rw [if_neg hxn] at hj
        have := h.entsBdd x j hj; omega
  · intro j hj
    rw [acc j, if_neg (by omega : j ≠ t), if_neg (by omega : j ≠ nf)]
    exact h.highEmpty j (by omega)
  · intro j hj
    rw [acc j]
    by_cases hxt : j = t
    · rw [if_pos hxt, hpT, ← hxt]
      exact h.headsPrev j hj
    · rw [if_neg hxt, if_neg (by omega : j ≠ nf)]
      exact h.headsPrev j hj
  · intro x e he
    rw [acc x] at he
    have core : e ∈ dirEntries (store t) ∨ e ∈ dirEntries (store x) := by
      by_cases hxt : x = t
      · rw [if_pos hxt, hdT] at he; exact Or.inl he
      · rw [if_neg hxt] at he
        by_cases hxn : x = nf
        · rw [if_pos hxn, hdN] at he
          exact absurd he (List.not_mem_nil e)
        · rw [if_neg hxn] at he; exact Or.inr he
    have hold : pOf (store e.control_blob) = 0 ∧ e.control_blob < nf := by
      rcases core with hc | hc
      · exact ⟨h.ctrlHeadsPrev t e hc, h.entsBdd t _ (control_blob_mem_entryIds hc)⟩
      · exact ⟨h.ctrlHeadsPrev x e hc, h.entsBdd x _ (control_blob_mem_entryIds hc)⟩
    rw [acc e.control_blob]
    by_cases het : e.control_blob = t
    · rw [if_pos het, hpT, ← het]
      exact hold.1
    · rw [if_neg het, if_neg (Nat.ne_of_lt hold.2)]
      exact hold.1

/-! ## The state-level invariant (supporting lemmas) -/

theorem stepInv_of_inv {st : State} {nf : Nat} (h : Inv st) (hnf : stateNF st = some nf) :
    StepInv st nf := ⟨hnf, (h nf hnf).1, (h nf hnf).2⟩

theorem stateNF_store_upd {st : State} {i : Nat} (v : BlobContent) (hi : i ≠ 0) :
    stateNF { st with store := upd st.store i v } = stateNF st := by
  unfold stateNF
  cases st.gmeta with
  | some m => rfl
  | none =>
    have : upd st.store i v 0 = st.store 0 := upd_ne st.store i 0 v (Ne.symm hi)
    simp only [this]

/-- `get_next_free_id` on a governed state: hands out exactly the governing
bound and moves it up by one. -/
theorem alloc_step {st : State} {nf : Nat} (h : StepInv st nf) {n : Nat} {st1 : State}
    (ha : get_next_free_id st = some (n, st1)) :
    n = nf ∧ st1.store = st.store ∧ StepInv st1 (nf + 1) := by
  obtain ⟨hsn, hge, hsi⟩ := h
  unfold get_next_free_id at ha
  cases hg : st.gmeta with
  | none => rw [hg] at ha; exact absurd ha (by simp)
  | some m =>
    rw [hg] at ha
    have hnm : nf = m.next_free := by
      unfold stateNF at hsn; rw [hg] at hsn
      exact (Option.some.injEq _ _ ▸ hsn : m.next_free = nf).symm
    obtain ⟨hn, hst⟩ : n = m.next_free ∧
        st1 = { st with gmeta := some { m with next_free := m.next_free + 1 } } := by
      cases ha; exact ⟨rfl, rfl⟩
    subst hst
    refine ⟨by omega, rfl, ?_, by omega, ?_⟩
    · unfold stateNF; simp; omega
    · exact hsi.weaken (by omega)

theorem maybe_init_ctrl_step {st : State} {nf : Nat} (h : StepInv st nf)
    {i : Nat} (hi0 : i ≠ 0) (hi : i < nf) : StepInv (maybe_init_ctrl st i) nf := by
  obtain ⟨hsn, hge, hsi⟩ := h
  unfold maybe_init_ctrl
  cases hc : st.store i with
  | empty =>
    refine ⟨by rw [stateNF_store_upd _ hi0]; exact hsn, hge, ?_⟩
    exact hsi.updLone i _ hc trivial rfl rfl rfl rfl hi0 hi
  | meta m => exact ⟨hsn, hge, hsi⟩
  | ctrl c => exact ⟨hsn, hge, hsi⟩
  | dir d => exact ⟨hsn, hge, hsi⟩
  | data bytes => exact ⟨hsn, hge, hsi⟩

theorem maybe_init_dir_step {st : State} {nf : Nat} (h : StepInv st nf)
    {i : Nat} (hi0 : i ≠ 0) (hi : i < nf) : StepInv (maybe_init_dir st i) nf := by
  obtain ⟨hsn, hge, hsi⟩ := h
  unfold maybe_init_dir
  cases hc : st.store i with
  | empty =>
    refine ⟨by rw [stateNF_store_upd _ hi0]; exact hsn, hge, ?_⟩
    exact hsi.updLone i _ hc trivial rfl rfl rfl rfl hi0 hi
  | meta m => exact ⟨hsn, hge, hsi⟩
  | ctrl c => exact ⟨hsn, hge, hsi⟩
  | dir d => exact ⟨hsn, hge, hsi⟩
  | data bytes => exact ⟨hsn, hge, hsi⟩

theorem upd_upd_same (store : Nat → BlobContent) (i : Nat) (v w : BlobContent) :
    upd (upd store i v) i w = upd store i w := by
  funext j; by_cases hj : j = i <;> simp [upd, hj]

theorem getCtrl_of {st : State} {i : Nat} {c : ControlBlockC}
    (h : st.store i = .ctrl c) : getCtrl st i = some c := by
  unfold getCtrl; rw [h]

theorem getDir_of {st : State} {i : Nat} {d : DirBlockC}
    (h : st.store i = .dir d) : getDir st i = some d := by
  unfold getDir; rw [h]

theorem maybe_init_ctrl_of_empty {st : State} {i : Nat} (h : st.store i = .empty) :
    maybe_init_ctrl st i = { st with store := upd st.store i (.ctrl ⟨0, 0, 0, 0, 0, []⟩) } := by
  unfold maybe_init_ctrl; rw [h]

theorem maybe_init_dir_of_empty {st : State} {i : Nat} (h : st.store i = .empty) :
    maybe_init_dir st i = { st with store := upd st.store i (.dir ⟨0, 0, 0, []⟩) } := by
  unfold maybe_init_dir; rw [h]

theorem maybe_init_ctrl_of_ctrl {st : State} {i : Nat} {c : ControlBlockC}
    (h : st.store i = .ctrl c) : maybe_init_ctrl st i = st := by
  unfold maybe_init_ctrl; rw [h]

theorem gmeta_bump {st : State} {n : Nat} {st1 : State}
    (hga : get_next_free_id st = some (n, st1)) :
    st1.gmeta = st.gmeta.map (fun m => { m with next_free := m.next_free + 1 }) ∧
    st1.store = st.store := by
  unfold get_next_free_id at hga
  cases hg : st.gmeta with
  | none => rw [hg] at hga; exact absurd hga (by simp)
  | some m => rw [hg] at hga; cases hga; exact ⟨rfl, rfl⟩

theorem ctrl_set_prev_of {st : State} {i : Nat} {c : ControlBlockC}
    (h : st.store i = .ctrl c) (p : Nat) :
    ctrl_set_prev st i p = some { st with store := upd st.store i (.ctrl { c with prev := p }) } := by
  unfold ctrl_set_prev
  rw [getCtrl_of h]
  rfl

theorem ctrl_set_next_of {st : State} {i : Nat} {c : ControlBlockC}
    (h : st.store i = .ctrl c) (n : Nat) :
    ctrl_set_next st i n = some { st with store := upd st.store i (.ctrl { c with next := n }) } := by
  unfold ctrl_set_next
  rw [getCtrl_of h]
  rfl

theorem dir_set_prev_of {st : State} {i : Nat} {d : DirBlockC}
    (h : st.store i = .dir d) (p : Nat) :
    dir_set_prev st i p = some { st with store := upd st.store i (.dir { d with prev := p }) } := by
  unfold dir_set_prev
  rw [getDir_of h]
  rfl

theorem dir_set_next_of {st : State} {i : Nat} {d : DirBlockC}
    (h : st.store i = .dir d) (n : Nat) :
    dir_set_next st i n = some { st with store := upd st.store i (.dir { d with next := n }) } := by
  unfold dir_set_next
  rw [getDir_of h]
  rfl

theorem ctrl_update_header_of {st : State} {i : Nat} {c : ControlBlockC}
    (h : st.store i = .ctrl c) (fn : ControlBlockC → ControlBlockC) :
    ctrl_update_header st i fn =
      some { st with store := upd st.store i (.ctrl { fn c with blobs := c.blobs }) } := by
  unfold ctrl_update_header
  rw [getCtrl_of h]
  rfl

/-- `ChainBlock<ControlBlock>` on a governed state whose target is a control
tail (`next = 0`): the new block id is the governing bound, the resulting
store is the two-blob surgery of `StoreInv.chain`, and the invariant holds at
the incremented bound. -/
theorem chain_ctrl_step {st : State} {nf : Nat} (h : StepInv st nf)
    {t : Nat} {c : ControlBlockC} (ht : st.store t = .ctrl c) (htn : c.next = 0)
    {n1 : Nat} {st1 : State} (hcc : ChainBlockCtrl st t = some (n1, st1)) :
    n1 = nf ∧
    st1.store = upd (upd st.store nf (.ctrl ⟨0, t, 0, 0, 0, []⟩)) t
      (.ctrl { c with next := nf }) ∧
    st1.gmeta = (st.gmeta.map fun m => { m with next_free := m.next_free + 1 }) ∧
    StepInv st1 (nf + 1) := by
  have hbt : isBlock (st.store t) := by rw [ht]; trivial
  have htlt : t < nf := h.2.2.bounded t hbt
  have hge : DIR_HEADS + 1 ≤ nf := h.2.1
  have hfree : st.store nf = .empty := h.2.2.highEmpty nf le_rfl
  obtain ⟨m, hgm⟩ : ∃ m, st.gmeta = some m := by
    cases hg : st.gmeta with
    | none =>
      exfalso
      unfold ChainBlockCtrl get_next_free_id at hcc
      rw [hg] at hcc
      exact absurd hcc (by simp [bind, Option.bind])
    | some m => exact ⟨m, rfl⟩
  have hmn : m.next_free = nf := by
    have h1 := h.1
    unfold stateNF at h1
    rw [hgm] at h1
    cases h1; rfl
  have hga : get_next_free_id st =
      some (m.next_free, { st with gmeta := some { m with next_free := m.next_free + 1 } }) := by
    unfold get_next_free_id; rw [hgm]
  have hInit : maybe_init_ctrl
        ({ st with gmeta := some { m with next_free := m.next_free + 1 } } : State) m.next_free =
      { store := upd st.store m.next_free (.ctrl ⟨0, 0, 0, 0, 0, []⟩),
        gmeta := some { m with next_free := m.next_free + 1 } } := by
    rw [maybe_init_ctrl_of_empty (show
      ({ st with gmeta := some { m with next_free := m.next_free + 1 } } : State).store
        m.next_free = .empty from by rw [hmn]; exact hfree)]
  have hPrev := ctrl_set_prev_of (show
      ({ store := upd st.store m.next_free (.ctrl ⟨0, 0, 0, 0, 0, []⟩),
         gmeta := some { m with next_free := m.next_free + 1 } } : State).store m.next_free =
      .ctrl ⟨0, 0, 0, 0, 0, []⟩ from upd_self _ _ _) t
  have hCt : upd (upd st.store m.next_free (.ctrl ⟨0, 0, 0, 0, 0, []⟩)) m.next_free
      (.ctrl { (⟨0, 0, 0, 0, 0, []⟩ : ControlBlockC) with prev := t }) t = .ctrl c := by
    rw [upd_ne _ _ _ _ (by omega : t ≠ m.next_free),
        upd_ne _ _ _ _ (by omega : t ≠ m.next_free), ht]
  have hNext := ctrl_set_next_of (show
      ({ store := upd (upd st.store m.next_free (.ctrl ⟨0, 0, 0, 0, 0, []⟩)) m.next_free
           (.ctrl { (⟨0, 0, 0, 0, 0, []⟩ : ControlBlockC) with prev := t }),
         gmeta := some { m with next_free := m.next_free + 1 } } : State).store t =
      .ctrl c from hCt) m.next_free
  unfold ChainBlockCtrl at hcc
  rw [hga] at hcc
  simp only [bind, Option.bind] at hcc
  rw [hInit, hPrev] at hcc
  simp only [Option.bind] at hcc
  rw [hNext] at hcc
  simp only [Option.bind, pure] at hcc
  rw [Option.some.injEq, Prod.mk.injEq] at hcc
  obtain ⟨hn1, hst1⟩ := hcc
  have hstore1 : st1.store = upd (upd st.store nf (.ctrl ⟨0, t, 0, 0, 0, []⟩)) t (.ctrl { c with next := nf }) := by
    rw [← hst1]
    show upd (upd (upd st.store m.next_free (.ctrl ⟨0, 0, 0, 0, 0, []⟩)) m.next_free (.ctrl ⟨0, t, 0, 0, 0, []⟩)) t (.ctrl { c with next := m.next_free }) = _
    rw [upd_upd_same, hmn]
  have hgm1 : st1.gmeta = (st.gmeta.map fun m => { m with next_free := m.next_free + 1 }) := by
    rw [← hst1, hgm]
    rfl
  refine ⟨by omega, hstore1, hgm1, ?_⟩
  have hnfstate : stateNF st1 = some (nf + 1) := by
    unfold stateNF
    rw [← hst1]
    show some (m.next_free + 1) = some (nf + 1)
    rw [hmn]
  refine ⟨hnfstate, by omega, ?_⟩
  rw [hstore1]
  exact h.2.2.chain t _ _ hbt (by rw [ht]; exact htn) trivial (by rw [ht]; rfl) rfl
    (by rw [ht]; rfl) (by rw [ht]; rfl) trivial rfl rfl rfl rfl (by omega)

/-- `ChainBlock<DirBlock>` analogue of `chain_ctrl_step`. -/
theorem chain_dir_step {st : State} {nf : Nat} (h : StepInv st nf)
    {t : Nat} {d : DirBlockC} (ht : st.store t = .dir d) (htn : d.next = 0)
    {n1 : Nat} {st1 : State} (hcc : ChainBlockDir st t = some (n1, st1)) :
    n1 = nf ∧
    st1.store = upd (upd st.store nf (.dir ⟨0, t, 0, []⟩)) t
      (.dir { d with next := nf }) ∧
    st1.gmeta = (st.gmeta.map fun m => { m with next_free := m.next_free + 1 }) ∧
    StepInv st1 (nf + 1) := by
  have hbt : isBlock (st.store t) := by rw [ht]; trivial
  have htlt : t < nf := h.2.2.bounded t hbt
  have hge : DIR_HEADS + 1 ≤ nf := h.2.1
  have hfree : st.store nf = .empty := h.2.2.highEmpty nf le_rfl
  obtain ⟨m, hgm⟩ : ∃ m, st.gmeta = some m := by
    cases hg : st.gmeta with
    | none =>
      exfalso
      unfold ChainBlockDir get_next_free_id at hcc
      rw [hg] at hcc
      exact absurd hcc (by simp [bind, Option.bind])
    | some m => exact ⟨m, rfl⟩
  have hmn : m.next_free = nf := by
    have h1 := h.1
    unfold stateNF at h1
    rw [hgm] at h1
    cases h1; rfl
  have hga : get_next_free_id st =
      some (m.next_free, { st with gmeta := some { m with next_free := m.next_free + 1 } }) := by
    unfold get_next_free_id; rw [hgm]
  have hInit : maybe_init_dir
        ({ st with gmeta := some { m with next_free := m.next_free + 1 } } : State) m.next_free =
      { store := upd st.store m.next_free (.dir ⟨0, 0, 0, []⟩),
        gmeta := some { m with next_free := m.next_free + 1 } } := by
    rw [maybe_init_dir_of_empty (show
      ({ st with gmeta := some { m with next_free := m.next_free + 1 } } : State).store
        m.next_free = .empty from by rw [hmn]; exact hfree)]
  have hPrev := dir_set_prev_of (show
      ({ store := upd st.store m.next_free (.dir ⟨0, 0, 0, []⟩),
         gmeta := some { m with next_free := m.next_free + 1 } } : State).store m.next_free =
      .dir ⟨0, 0, 0, []⟩ from upd_self _ _ _) t
  have hCt : upd (upd st.store m.next_free (.dir ⟨0, 0, 0, []⟩)) m.next_free
      (.dir { (⟨0, 0, 0, []⟩ : DirBlockC) with prev := t }) t = .dir d := by
    rw [upd_ne _ _ _ _ (by omega : t ≠ m.next_free),
        upd_ne _ _ _ _ (by omega : t ≠ m.next_free), ht]
  have hNext := dir_set_next_of (show
      ({ store := upd (upd st.store m.next_free (.dir ⟨0, 0, 0, []⟩)) m.next_free
           (.dir { (⟨0, 0, 0, []⟩ : DirBlockC) with prev := t }),
         gmeta := some { m with next_free := m.next_free + 1 } } : State).store t =
      .dir d from hCt) m.next_free
  unfold ChainBlockDir at hcc
  rw [hga] at hcc
  simp only [bind, Option.bind] at hcc
  rw [hInit, hPrev] at hcc
  simp only [Option.bind] at hcc
  rw [hNext] at hcc
  simp only [Option.bind, pure] at hcc
  rw [Option.some.injEq, Prod.mk.injEq] at hcc
  obtain ⟨hn1, hst1⟩ := hcc
  have hstore1 : st1.store = upd (upd st.store nf (.dir ⟨0, t, 0, []⟩)) t (.dir { d with next := nf }) := by
    rw [← hst1]
    show upd (upd (upd st.store m.next_free (.dir ⟨0, 0, 0, []⟩)) m.next_free (.dir ⟨0, t, 0, []⟩)) t (.dir { d with next := m.next_free }) = _
    rw [upd_upd_same, hmn]
  have hgm1 : st1.gmeta = (st.gmeta.map fun m => { m with next_free := m.next_free + 1 }) := by
    rw [← hst1, hgm]
    rfl
  refine ⟨by omega, hstore1, hgm1, ?_⟩
  have hnfstate : stateNF st1 = some (nf + 1) := by
    unfold stateNF
    rw [← hst1]
    show some (m.next_free + 1) = some (nf + 1)
    rw [hmn]
  refine ⟨hnfstate, by omega, ?_⟩
  rw [hstore1]
  exact h.2.2.chain t _ _ hbt (by rw [ht]; exact htn) trivial (by rw [ht]; rfl) rfl
    (by rw [ht]; rfl) (by rw [ht]; rfl) trivial rfl rfl rfl rfl (by omega)

theorem getCtrl_inv {st : State} {i : Nat} {c : ControlBlockC}
    (h : getCtrl st i = some c) : st.store i = .ctrl c := by
  unfold getCtrl at h
  cases hs : st.store i <;> rw [hs] at h <;> simp at h
  rw [h]

theorem getDir_inv {st : State} {i : Nat} {d : DirBlockC}
    (h : getDir st i = some d) : st.store i = .dir d := by
  unfold getDir at h
  cases hs : st.store i <;> rw [hs] at h <;> simp at h
  rw [h]

theorem name_to_dir_id_range (name : String) :
    1 ≤ name_to_dir_id name ∧ name_to_dir_id name ≤ DIR_HEADS := by
  unfold name_to_dir_id META_RESERVED
  have : fnv32 name % DIR_HEADS < DIR_HEADS := Nat.mod_lt _ (by decide)
  omega

theorem findEntry_mem {l : List FileEntryC} {name : String}
    (h : findEntry l name ≠ 0) : findEntry l name ∈ l.map (fun e => e.control_blob) := by
  induction l with
  | nil => exact absurd rfl h
  | cons e es ih =>
    unfold findEntry at h ⊢
    by_cases he : e.name = name
    . rw [if_pos he] at h ⊢
      exact List.mem_cons_self _ _
    . rw [if_neg he] at h ⊢
      exact List.mem_cons_of_mem _ (ih h)

theorem dir_find_mem {d : DirBlockC} {name : String} {sz : Nat}
    (h : d.find name sz ≠ 0) : d.find name sz ∈ entryIds (.dir d) := by
  unfold DirBlockC.find at h ⊢
  have h1 := findEntry_mem h
  show _ ∈ d.entries.map (fun e => e.control_blob)
  have hsub : (d.entries.take ((sz - sizeofDirBlock) / sizeofFileEntry)).map
      (fun e => e.control_blob) ⊆ d.entries.map (fun e => e.control_blob) := by
    intro a ha
    rw [List.mem_map] at ha ⊢
    obtain ⟨e, he, heq⟩ := ha
    exact ⟨e, List.take_subset _ _ he, heq⟩
  exact hsub h1

/-- The directory-chain scan of `GetControlBlob`: the node it ends on is a dir
block of the (unmodified) state; a nonzero result is one of that block's
entry ids; a zero result means the node is the chain's tail. -/
theorem gcbWalk_some {st : State} {name : String} : ∀ fuel dirId cb tailId,
    gcbWalk fuel st dirId name = some (cb, tailId) →
    ∃ d, getDir st tailId = some d ∧
      (cb ≠ 0 → cb ∈ entryIds (.dir d)) ∧ (cb = 0 → d.next = 0) := by
  intro fuel
  induction fuel with
  | zero => intro dirId cb tailId h; exact absurd h (by simp [gcbWalk])
  | succ fuel ih =>
    intro dirId cb tailId h
    unfold gcbWalk at h
    cases hgd : getDir st dirId with
    | none => rw [hgd] at h; exact absurd h (by simp)
    | some d =>
      rw [hgd] at h
      replace h : (if d.find name (blobSize (.dir d)) ≠ 0 then
          some (d.find name (blobSize (.dir d)), dirId)
        else if d.next = 0 then some (0, dirId)
        else gcbWalk fuel st d.next name) = some (cb, tailId) := h
      by_cases hfind : d.find name (blobSize (.dir d)) ≠ 0
      . rw [if_pos hfind] at h
        obtain ⟨h1, h2⟩ : d.find name (blobSize (.dir d)) = cb ∧ dirId = tailId := by
          cases h; exact ⟨rfl, rfl⟩
        subst h2
        refine ⟨d, hgd, fun _ => ?_, fun hc => ?_⟩
        . rw [← h1]; exact dir_find_mem hfind
        . rw [← h1] at hc; exact absurd hc hfind
      . rw [if_neg hfind] at h
        by_cases hnext : d.next = 0
        . rw [if_pos hnext] at h
          obtain ⟨h1, h2⟩ : (0 : Nat) = cb ∧ dirId = tailId := by
            cases h; exact ⟨rfl, rfl⟩
          subst h2
          exact ⟨d, hgd, fun hc => absurd h1.symm hc, fun _ => hnext⟩
        . rw [if_neg hnext] at h
          exact ih d.next cb tailId h

theorem ctrl_append_of {st : State} {i : Nat} {c : ControlBlockC}
    (h : st.store i = .ctrl c) (rec : Nat) :
    ctrl_append st i rec =
      if MaxBlobSize - sizeofCtrlRecord < blobSize (.ctrl c) then some (false, st)
      else some (true, { st with store := upd st.store i (.ctrl { c with blobs := c.blobs ++ [rec] }) }) := by
  unfold ctrl_append
  rw [h]

theorem dir_append_of {st : State} {i : Nat} {d : DirBlockC}
    (h : st.store i = .dir d) (rec : FileEntryC) :
    dir_append st i rec =
      if MaxBlobSize - sizeofFileEntry < blobSize (.dir d) then some (false, st)
      else some (true, { st with store := upd st.store i (.dir { d with entries := d.entries ++ [rec] }) }) := by
  unfold dir_append
  rw [h]

/-- Appending a record id to a control block preserves the invariant when the
id is below the bound. -/
theorem StoreInv.ctrlAppend {nf : Nat} {store : Nat → BlobContent} {i : Nat}
    {c : ControlBlockC} (h : StoreInv nf store) (hi : store i = .ctrl c)
    {rec : Nat} (hrec : rec < nf) :
    StoreInv nf (upd store i (.ctrl { c with blobs := c.blobs ++ [rec] })) := by
  have hblk : isBlock (store i) := by rw [hi]; trivial
  refine h.updHdrSame i _ (by rw [hi]; exact Iff.rfl) (by rw [hi]; rfl) (by rw [hi]; rfl)
    ?_ (by intro e he; exact absurd he (List.not_mem_nil e)) (h.bounded i hblk)
  intro j hj
  simp only [entryIds, List.mem_append, List.mem_singleton] at hj
  rcases hj with hj | hj
  . exact h.entsBdd i j (by rw [hi]; exact hj)
  . omega

/-- Appending a `FileEntry` to a dir block preserves the invariant when the
referenced control blob is below the bound and currently has `prev = 0`. -/
theorem StoreInv.dirAppend {nf : Nat} {store : Nat → BlobContent} {i : Nat}
    {d : DirBlockC} (h : StoreInv nf store) (hi : store i = .dir d)
    {rec : FileEntryC} (hrec : rec.control_blob < nf)
    (hprev : pOf (store rec.control_blob) = 0) :
    StoreInv nf (upd store i (.dir { d with entries := d.entries ++ [rec] })) := by
  have hblk : isBlock (store i) := by rw [hi]; trivial
  refine h.updHdrSame i _ (by rw [hi]; exact Iff.rfl) (by rw [hi]; rfl) (by rw [hi]; rfl)
    ?_ ?_ (h.bounded i hblk)
  . intro j hj
    simp only [entryIds, List.map_append, List.mem_append] at hj
    rcases hj with hj | hj
    . exact h.entsBdd i j (by rw [hi]; exact hj)
    . simp at hj
      omega
  . intro e he
    simp only [dirEntries, List.mem_append, List.mem_singleton] at he
    rcases he with he | he
    . exact h.ctrlHeadsPrev i e (by rw [hi]; exact he)
    . rw [he]; exact hprev

/-- Rewriting a control block's header without touching `prev`, `next` or the
record array preserves the invariant. -/
theorem StoreInv.ctrlSetHdr {nf : Nat} {store : Nat → BlobContent} {i : Nat}
    {c c1 : ControlBlockC} (h : StoreInv nf store) (hi : store i = .ctrl c)
    (hp : c1.prev = c.prev) (hn : c1.next = c.next) (hbl : c1.blobs = c.blobs) :
    StoreInv nf (upd store i (.ctrl c1)) := by
  have hblk : isBlock (store i) := by rw [hi]; trivial
  refine h.updHdrSame i _ (by rw [hi]; exact Iff.rfl) (by rw [hi]; exact hp) (by rw [hi]; exact hn)
    ?_ (by intro e he; exact absurd he (List.not_mem_nil e)) (h.bounded i hblk)
  intro j hj
  show j < nf
  refine h.entsBdd i j ?_
  rw [hi]
  show j ∈ c.blobs
  rw [← hbl]
  exact hj

/-- Writing raw data bytes over an empty or data blob below the bound
preserves the invariant (no header on either side). -/
theorem StoreInv.dataWrite {nf : Nat} {store : Nat → BlobContent} {i : Nat}
    (h : StoreInv nf store) (hi : store i = .empty ∨ ∃ b, store i = .data b)
    (hlt : i < nf) (bytes : List Nat) :
    StoreInv nf (upd store i (.data bytes)) := by
  refine h.updHdrSame i _ ?_ ?_ ?_
    (by intro j hj; exact absurd hj (List.not_mem_nil j))
    (by intro e he; exact absurd he (List.not_mem_nil e)) hlt
  . rcases hi with hi | ⟨b, hi⟩ <;> rw [hi] <;> exact Iff.rfl
  . rcases hi with hi | ⟨b, hi⟩ <;> rw [hi] <;> rfl
  . rcases hi with hi | ⟨b, hi⟩ <;> rw [hi] <;> rfl

theorem stepInv_upd {st : State} {nf i : Nat} {v : BlobContent} (h : StepInv st nf)
    (hi0 : i ≠ 0) (hsi : StoreInv nf (upd st.store i v)) :
    StepInv { st with store := upd st.store i v } nf :=
  ⟨by rw [stateNF_store_upd v hi0]; exact h.1, h.2.1, hsi⟩

theorem stepInv_upd_g {st : State} {nf i : Nat} {v : BlobContent} (h : StepInv st nf)
    (hgm : ∃ m, st.gmeta = some m) (hsi : StoreInv nf (upd st.store i v)) :
    StepInv { st with store := upd st.store i v } nf := by
  obtain ⟨m, hm⟩ := hgm
  refine ⟨?_, h.2.1, hsi⟩
  have h1 := h.1
  unfold stateNF at h1 ⊢
  rw [hm] at h1 ⊢
  exact h1

theorem stateNF_congr {st st1 : State} (hg : st1.gmeta = st.gmeta)
    (h0 : st1.store 0 = st.store 0) : stateNF st1 = stateNF st := by
  unfold stateNF
  rw [hg, h0]

theorem maybe_init_ctrl_frame {st : State} {i : Nat} (j : Nat) (hj : j ≠ i) :
    (maybe_init_ctrl st i).store j = st.store j ∧ (maybe_init_ctrl st i).gmeta = st.gmeta := by
  unfold maybe_init_ctrl
  cases st.store i <;> first
    | exact ⟨rfl, rfl⟩
    | exact ⟨upd_ne _ _ _ _ hj, rfl⟩

theorem maybe_init_dir_frame {st : State} {i : Nat} (j : Nat) (hj : j ≠ i) :
    (maybe_init_dir st i).store j = st.store j ∧ (maybe_init_dir st i).gmeta = st.gmeta := by
  unfold maybe_init_dir
  cases st.store i <;> first
    | exact ⟨rfl, rfl⟩
    | exact ⟨upd_ne _ _ _ _ hj, rfl⟩

/-- When the system is not initialised (`g_meta` null), a completed
`GetControlBlob` can only have taken the lookup paths: the create path starts
with `get_next_free_id`, which dereferences `g_meta`. -/
theorem gcb_gmeta_none {fuel : Nat} {st : State} {dirId : Nat} {name : String}
    {action : CbAction} {r : Option Nat} {st1 : State}
    (hgm : st.gmeta = none)
    (hg : GetControlBlob fuel st dirId name action = some (r, st1)) :
    st1.gmeta = none ∧ st1.store 0 = st.store 0 := by
  unfold GetControlBlob at hg
  cases hw : gcbWalk fuel st dirId name with
  | none => rw [hw] at hg; exact absurd hg (by simp [bind, Option.bind])
  | some p =>
    obtain ⟨cb, tailId⟩ := p
    rw [hw] at hg
    simp only [bind, Option.bind, pure] at hg
    by_cases hcb : cb ≠ 0
    . rw [if_pos hcb] at hg
      obtain ⟨h1, h2⟩ : (some cb : Option Nat) = r ∧ maybe_init_ctrl st cb = st1 := by
        cases hg; exact ⟨rfl, rfl⟩
      rw [← h2]
      obtain ⟨hs, hgm2⟩ := maybe_init_ctrl_frame 0 (fun hc => hcb hc.symm)
      exact ⟨by rw [hgm2]; exact hgm, hs⟩
    . rw [if_neg hcb] at hg
      by_cases hact : action = CbAction.FileMustExist
      . rw [if_pos hact] at hg
        obtain ⟨h1, h2⟩ : (none : Option Nat) = r ∧ st = st1 := by
          cases hg; exact ⟨rfl, rfl⟩
        rw [← h2]
        exact ⟨hgm, rfl⟩
      . rw [if_neg hact] at hg
        unfold get_next_free_id at hg
        rw [hgm] at hg
        exact absurd hg (by simp [bind, Option.bind])

/-- A completed `GetControlBlob` on a governed state preserves the invariant
(at a possibly advanced bound), and in create mode never returns the null
control node: the final append happens on a freshly chained dir-block that
holds no records yet, so it always fits. -/
theorem gcb_step {fuel : Nat} {st : State} {nf : Nat} {dirId : Nat} {name : String}
    {action : CbAction} {r : Option Nat} {st1 : State}
    (h : StepInv st nf)
    (hg : GetControlBlob fuel st dirId name action = some (r, st1)) :
    (∃ nf1, nf ≤ nf1 ∧ StepInv st1 nf1) ∧
    (action = CbAction.FileCreate → r ≠ none) := by
  have hge : DIR_HEADS + 1 ≤ nf := h.2.1
  unfold GetControlBlob at hg
  cases hw : gcbWalk fuel st dirId name with
  | none => rw [hw] at hg; exact absurd hg (by simp [bind, Option.bind])
  | some p =>
    obtain ⟨cb, tailId⟩ := p
    rw [hw] at hg
    simp only [bind, Option.bind, pure] at hg
    obtain ⟨d, hgd, hmem, htail⟩ := gcbWalk_some fuel dirId cb tailId hw
    have hdt : st.store tailId = .dir d := getDir_inv hgd
    have htblk : isBlock (st.store tailId) := by rw [hdt]; trivial
    have htlt : tailId < nf := h.2.2.bounded tailId htblk
    by_cases hcb : cb ≠ 0
    . -- found: wrap the node (its constructor may init an empty blob)
      rw [if_pos hcb] at hg
      obtain ⟨h1, h2⟩ : (some cb : Option Nat) = r ∧ maybe_init_ctrl st cb = st1 := by
        cases hg; exact ⟨rfl, rfl⟩
      have hcblt : cb < nf := by
        refine h.2.2.entsBdd tailId cb ?_
        rw [hdt]
        exact hmem hcb
      refine ⟨⟨nf, le_rfl, ?_⟩, fun _ => by rw [← h1]; simp⟩
      rw [← h2]
      exact maybe_init_ctrl_step h hcb hcblt
    . rw [if_neg hcb] at hg
      push_neg at hcb
      have hdnext : d.next = 0 := htail hcb
      by_cases hact : action = CbAction.FileMustExist
      . rw [if_pos hact] at hg
        obtain ⟨h1, h2⟩ : (none : Option Nat) = r ∧ st = st1 := by
          cases hg; exact ⟨rfl, rfl⟩
        refine ⟨⟨nf, le_rfl, by rw [← h2]; exact h⟩, fun hc => ?_⟩
        rw [hact] at hc
        exact absurd hc (by simp)
      . rw [if_neg hact] at hg
        -- create path
        obtain ⟨m, hgm⟩ : ∃ m, st.gmeta = some m := by
          cases hgmc : st.gmeta with
          | none =>
            exfalso
            unfold get_next_free_id at hg
            rw [hgmc] at hg
            exact absurd hg (by simp [bind, Option.bind])
          | some m => exact ⟨m, rfl⟩
        have hmn : m.next_free = nf := by
          have h1 := h.1
          unfold stateNF at h1
          rw [hgm] at h1
          cases h1; rfl
        have hga : get_next_free_id st =
            some (m.next_free, { st with gmeta := some { m with next_free := m.next_free + 1 } }) := by
          unfold get_next_free_id; rw [hgm]
        obtain ⟨hnn, hstoreA, hstepA⟩ := alloc_step h hga
        rw [hga] at hg
        simp only [bind, Option.bind] at hg
        have hfree : st.store nf = .empty := h.2.2.highEmpty nf le_rfl
        rw [maybe_init_ctrl_of_empty (show
          ({ st with gmeta := some { m with next_free := m.next_free + 1 } } : State).store
            m.next_free = .empty from by rw [hmn]; exact hfree)] at hg
        rw [ctrl_update_header_of (show
          ({ store := upd st.store m.next_free (.ctrl ⟨0, 0, 0, 0, 0, []⟩),
             gmeta := some { m with next_free := m.next_free + 1 } } : State).store m.next_free =
          .ctrl ⟨0, 0, 0, 0, 0, []⟩ from upd_self _ _ _) _] at hg
        simp only [Option.bind] at hg
        replace hg : Option.bind (dir_append ({ store := upd (upd st.store m.next_free (.ctrl ⟨0, 0, 0, 0, 0, []⟩)) m.next_free (.ctrl ⟨0, 0, 0, tailId, 0, []⟩), gmeta := some { m with next_free := m.next_free + 1 } } : State) tailId ⟨strTrunc name, m.next_free⟩)
          (fun p => if p.1 = true then some (some m.next_free, p.2)
            else Option.bind (ChainBlockDir p.2 tailId) (fun q =>
              Option.bind (dir_append q.2 q.1 ⟨strTrunc name, m.next_free⟩) (fun p2 =>
                if p2.1 = true then some (some m.next_free, p2.2)
                else some (none, p2.2)))) = some (r, st1) := hg
        have hNne : m.next_free ≠ 0 := by omega
        have hstep2 : StepInv ({ store := upd st.store m.next_free (.ctrl ⟨0, 0, 0, 0, 0, []⟩), gmeta := some { m with next_free := m.next_free + 1 } } : State) (nf + 1) := by
          have h0 := maybe_init_ctrl_step hstepA hNne (by omega)
          rw [maybe_init_ctrl_of_empty (show
            ({ st with gmeta := some { m with next_free := m.next_free + 1 } } : State).store
              m.next_free = .empty from by rw [hmn]; exact hfree)] at h0
          exact h0
        have hgm2 : ∃ m2, ({ store := upd st.store m.next_free (.ctrl ⟨0, 0, 0, 0, 0, []⟩), gmeta := some { m with next_free := m.next_free + 1 } } : State).gmeta = some m2 :=
          ⟨_, rfl⟩
        have hstep3 : StepInv ({ store := upd (upd st.store m.next_free (.ctrl ⟨0, 0, 0, 0, 0, []⟩)) m.next_free (.ctrl ⟨0, 0, 0, tailId, 0, []⟩), gmeta := some { m with next_free := m.next_free + 1 } } : State) (nf + 1) :=
          stepInv_upd_g hstep2 hgm2
            (hstep2.2.2.ctrlSetHdr (upd_self _ _ _) rfl rfl rfl)
        have hst3t : ({ store := upd (upd st.store m.next_free (.ctrl ⟨0, 0, 0, 0, 0, []⟩)) m.next_free (.ctrl ⟨0, 0, 0, tailId, 0, []⟩), gmeta := some { m with next_free := m.next_free + 1 } } : State).store tailId = .dir d := by
          show upd _ _ _ tailId = _
          rw [upd_ne _ _ _ _ (by omega : tailId ≠ m.next_free),
              upd_ne _ _ _ _ (by omega : tailId ≠ m.next_free), hdt]
        rw [dir_append_of hst3t ⟨strTrunc name, m.next_free⟩] at hg
        by_cases hfull : MaxBlobSize - sizeofFileEntry < blobSize (.dir d)
        . -- current tail full: a fresh dir-block is chained and the entry appended there
          rw [if_pos hfull] at hg
          simp only [Option.bind] at hg
          rw [if_neg (by simp : ¬ (false = true))] at hg
          cases hcd : ChainBlockDir ({ store := upd (upd st.store m.next_free (.ctrl ⟨0, 0, 0, 0, 0, []⟩)) m.next_free (.ctrl ⟨0, 0, 0, tailId, 0, []⟩), gmeta := some { m with next_free := m.next_free + 1 } } : State) tailId with
          | none => rw [hcd] at hg; exact absurd hg (by simp)
          | some q =>
            obtain ⟨n2, st5⟩ := q
            rw [hcd] at hg
            simp only [Option.bind] at hg
            obtain ⟨hn2, hstore5, hgm5, hstep5⟩ := chain_dir_step hstep3 hst3t hdnext hcd
            have hst5n2 : st5.store n2 = .dir ⟨0, tailId, 0, []⟩ := by
              rw [hstore5, hn2]
              rw [upd_ne _ _ _ _ (by omega : nf + 1 ≠ tailId), upd_self]
            rw [dir_append_of hst5n2 ⟨strTrunc name, m.next_free⟩] at hg
            rw [if_neg (show ¬ (MaxBlobSize - sizeofFileEntry <
              blobSize (.dir ⟨0, tailId, 0, []⟩)) by
                show ¬ (MaxBlobSize - sizeofFileEntry < sizeofDirBlock + sizeofFileEntry * 0)
                decide)] at hg
            simp only [Option.bind] at hg
            rw [if_pos trivial] at hg
            rw [Option.some.injEq, Prod.mk.injEq] at hg
            obtain ⟨hr, hst6⟩ := hg
            have hprev5 : pOf (st5.store m.next_free) = 0 := by
              rw [hstore5]
              rw [upd_ne _ _ _ _ (by omega : m.next_free ≠ tailId),
                  upd_ne _ _ _ _ (by omega : m.next_free ≠ nf + 1)]
              show pOf (upd (upd st.store m.next_free (.ctrl ⟨0, 0, 0, 0, 0, []⟩)) m.next_free (.ctrl ⟨0, 0, 0, tailId, 0, []⟩) m.next_free) = 0
              rw [upd_self]
              rfl
            refine ⟨⟨nf + 2, by omega, ?_⟩, fun _ => by rw [← hr]; simp⟩
            rw [← hst6]
            exact stepInv_upd_g hstep5 ⟨_, by rw [hgm5]; rfl⟩
              (hstep5.2.2.dirAppend hst5n2 (by show m.next_free < nf + 1 + 1; omega) hprev5)
        . -- entry fits in the current tail
          rw [if_neg hfull] at hg
          simp only [Option.bind] at hg
          rw [if_pos trivial] at hg
          rw [Option.some.injEq, Prod.mk.injEq] at hg
          obtain ⟨hr, hst4⟩ := hg
          have hprev3 : pOf (({ store := upd (upd st.store m.next_free (.ctrl ⟨0, 0, 0, 0, 0, []⟩)) m.next_free (.ctrl ⟨0, 0, 0, tailId, 0, []⟩), gmeta := some { m with next_free := m.next_free + 1 } } : State).store m.next_free) = 0 := by
            show pOf (upd _ _ _ m.next_free) = 0
            rw [upd_self]
            rfl
          refine ⟨⟨nf + 1, by omega, ?_⟩, fun _ => by rw [← hr]; simp⟩
          rw [← hst4]
          exact stepInv_upd_g hstep3 ⟨_, rfl⟩
            (hstep3.2.2.dirAppend hst3t (by show m.next_free < nf + 1; omega) hprev3)

theorem inv_of_stepInv {st : State} {nf : Nat} (h : StepInv st nf) : Inv st := by
  intro nf2 hnf2
  rw [h.1] at hnf2
  cases hnf2
  exact ⟨h.2.1, h.2.2⟩

theorem gmeta_none_of_stateNF_none {st : State} (h : stateNF st = none) : st.gmeta = none := by
  unfold stateNF at h
  cases hg : st.gmeta with
  | none => rfl
  | some m => rw [hg] at h; exact absurd h (by simp)

theorem inv_of_stateNF_none {st : State} (h : stateNF st = none) : Inv st := by
  intro nf hnf
  rw [h] at hnf
  exact absurd hnf (by simp)

/-- A completed `fopen` preserves the chain invariant. -/
theorem fopen_inv {fuel : Nat} {st : State} {name mode : String} {r : Option FILE}
    {stF : State} (h : Inv st) (hf : fopenS fuel st name mode = some (r, stF)) : Inv stF := by
  unfold fopenS at hf
  obtain ⟨hd1, hd2⟩ := name_to_dir_id_range name
  have hd0 : name_to_dir_id name ≠ 0 := by omega
  replace hf : (match GetControlBlob fuel (maybe_init_dir st (name_to_dir_id name))
      (name_to_dir_id name) name
      (if (strBytes mode).getD 0 0 = 119 ∨ (strBytes mode).getD 1 0 = 119 then
        CbAction.FileCreate else CbAction.FileMustExist) with
    | none => none
    | some (none, st2) => some ((none : Option FILE), st2)
    | some (some cid, st2) => some (some ⟨0, cid⟩, st2)) = some (r, stF) := hf
  cases hgc : GetControlBlob fuel (maybe_init_dir st (name_to_dir_id name))
      (name_to_dir_id name) name
      (if (strBytes mode).getD 0 0 = 119 ∨ (strBytes mode).getD 1 0 = 119 then
        CbAction.FileCreate else CbAction.FileMustExist) with
  | none => rw [hgc] at hf; exact absurd hf (by simp)
  | some p =>
    obtain ⟨ro, st2⟩ := p
    rw [hgc] at hf
    have hstF : st2 = stF := by
      cases ro with
      | none => cases hf; rfl
      | some cid => cases hf; rfl
    rw [← hstF]
    cases hnf : stateNF st with
    | some nf =>
      have hstep := stepInv_of_inv h hnf
      have hge : DIR_HEADS + 1 ≤ nf := hstep.2.1
      have hstepM := maybe_init_dir_step hstep hd0 (by unfold DIR_HEADS at hd2 hge; omega)
      obtain ⟨⟨nf1, hle, hstep2⟩, _⟩ := gcb_step hstepM hgc
      exact inv_of_stepInv hstep2
    | none =>
      have hgm : st.gmeta = none := gmeta_none_of_stateNF_none hnf
      obtain ⟨hs0, hgmM⟩ := maybe_init_dir_frame 0 (fun hc => hd0 hc.symm)
      obtain ⟨hgm2, hs02⟩ := gcb_gmeta_none (by rw [hgmM]; exact hgm) hgc
      refine inv_of_stateNF_none ?_
      rw [stateNF_congr (hgm2.trans hgm.symm) (hs02.trans hs0)]
      exact hnf

theorem ctrl_find_mem {c : ControlBlockC} {pos : Nat}
    (h : c.find pos (blobSize (.ctrl c)) ≠ 0) :
    c.find pos (blobSize (.ctrl c)) ∈ c.blobs := by
  unfold ControlBlockC.find at h ⊢
  have hcount : (blobSize (.ctrl c) - sizeofControlBlock) / sizeofCtrlRecord =
      c.blobs.length := by
    show (sizeofControlBlock + sizeofCtrlRecord * c.blobs.length - sizeofControlBlock) /
      sizeofCtrlRecord = c.blobs.length
    rw [Nat.add_sub_cancel_left]
    exact Nat.mul_div_cancel_left _ (by decide)
  rw [hcount] at h ⊢
  by_cases hix : c.blobs.length ≤ pos / MaxBlobSize
  . rw [if_pos hix] at h
    exact absurd rfl h
  . rw [if_neg hix] at h ⊢
    push_neg at hix
    rw [List.getD_eq_getElem _ _ hix]
    exact List.getElem_mem _

/-- One completed run of the `while (true)` location loop of `fwrite`
preserves the invariant (at a possibly advanced bound), and the data-blob id
it settles on is a nonzero id below the final bound. -/
theorem fwriteLoop_step {a b : Nat} : ∀ (fuel : Nat) (st : State) (cbId nf : Nat)
    (res : LoopRes) (stF : State), StepInv st nf →
    fwriteLoop fuel st cbId a b = some (res, stF) →
    ∃ nf1, nf ≤ nf1 ∧ StepInv stF nf1 ∧
      (∀ did cb2, res = .found did cb2 → did ≠ 0 ∧ did < nf1) := by
  intro fuel
  induction fuel with
  | zero => intro st cbId nf res stF _ hl; exact absurd hl (by simp [fwriteLoop])
  | succ fuel ih =>
    intro st cbId nf res stF h hl
    have hge : DIR_HEADS + 1 ≤ nf := h.2.1
    unfold fwriteLoop at hl
    cases hgc : getCtrl st cbId with
    | none => rw [hgc] at hl; exact absurd hl (by simp)
    | some c =>
      rw [hgc] at hl
      have hsc : st.store cbId = .ctrl c := getCtrl_inv hgc
      have hblk : isBlock (st.store cbId) := by rw [hsc]; trivial
      have hclt : cbId < nf := h.2.2.bounded cbId hblk
      replace hl : (if usub64 a c.start = 0 then
          (if c.find b (blobSize (.ctrl c)) = 0 then
            (match get_next_free_id st with
             | none => none
             | some (nid, st1) =>
               match ctrl_append st1 cbId nid with
               | none => none
               | some (_, st2) => some (.found nid cbId, st2))
           else some (.found (c.find b (blobSize (.ctrl c))) cbId, st))
        else if usub64 a c.start < 0 then
          (if c.prev = 0 then some (.errPrev cbId, st) else fwriteLoop fuel st c.prev a b)
        else if c.next ≠ 0 then fwriteLoop fuel st c.next a b
        else match ChainBlockCtrl st cbId with
          | none => none
          | some (nid, st1) =>
            match ctrl_update_header st1 nid
                (fun hdr => { hdr with start := c.start + 1, directory := c.directory }) with
            | none => none
            | some st2 => fwriteLoop fuel st2 nid a b) = some (res, stF) := hl
      by_cases hdel : usub64 a c.start = 0
      . rw [if_pos hdel] at hl
        by_cases hdid : c.find b (blobSize (.ctrl c)) = 0
        . -- no data blob for this slot yet: allocate and append
          rw [if_pos hdid] at hl
          cases hga : get_next_free_id st with
          | none => rw [hga] at hl; exact absurd hl (by simp)
          | some p =>
            obtain ⟨nid, stA⟩ := p
            rw [hga] at hl
            obtain ⟨hnid, hstoreA, hstepA⟩ := alloc_step h hga
            obtain ⟨hgmA, _⟩ := gmeta_bump hga
            obtain ⟨mm, hgm⟩ : ∃ mm, st.gmeta = some mm := by
              cases hgmc : st.gmeta with
              | none =>
                exfalso
                unfold get_next_free_id at hga
                rw [hgmc] at hga
                exact absurd hga (by simp)
              | some mm => exact ⟨mm, rfl⟩
            replace hl : (match ctrl_append stA cbId nid with
              | none => none
              | some (fst, st2) => some (LoopRes.found nid cbId, st2)) = some (res, stF) := hl
            rw [ctrl_append_of (show stA.store cbId = .ctrl c from by
              rw [hstoreA]; exact hsc) nid] at hl
            by_cases hfull : MaxBlobSize - sizeofCtrlRecord < blobSize (.ctrl c)
            . rw [if_pos hfull] at hl
              obtain ⟨h1, h2⟩ : LoopRes.found nid cbId = res ∧ stA = stF := by
                cases hl; exact ⟨rfl, rfl⟩
              refine ⟨nf + 1, by omega, by rw [← h2]; exact hstepA, ?_⟩
              intro did cb2 hres
              rw [← h1] at hres
              cases hres
              omega
            . rw [if_neg hfull] at hl
              obtain ⟨h1, h2⟩ : LoopRes.found nid cbId = res ∧
                  ({ stA with store := upd stA.store cbId (.ctrl { c with blobs := c.blobs ++ [nid] }) } : State) = stF := by
                cases hl; exact ⟨rfl, rfl⟩
              refine ⟨nf + 1, by omega, ?_, ?_⟩
              . rw [← h2]
                refine stepInv_upd_g hstepA ⟨_, by rw [hgmA, hgm]; rfl⟩ ?_
                exact hstepA.2.2.ctrlAppend (by rw [hstoreA]; exact hsc) (by omega)
              . intro did cb2 hres
                rw [← h1] at hres
                cases hres
                omega
        . -- slot already populated
          rw [if_neg hdid] at hl
          obtain ⟨h1, h2⟩ : LoopRes.found (c.find b (blobSize (.ctrl c))) cbId = res ∧
              st = stF := by
            cases hl; exact ⟨rfl, rfl⟩
          refine ⟨nf, le_rfl, by rw [← h2]; exact h, ?_⟩
          intro did cb2 hres
          rw [← h1] at hres
          cases hres
          refine ⟨hdid, ?_⟩
          refine h.2.2.entsBdd cbId _ ?_
          rw [hsc]
          exact ctrl_find_mem hdid
      . rw [if_neg hdel] at hl
        rw [if_neg (Nat.not_lt_zero _)] at hl
        by_cases hnx : c.next ≠ 0
        . rw [if_pos hnx] at hl
          exact ih st c.next nf res stF h hl
        . rw [if_neg hnx] at hl
          push_neg at hnx
          cases hcc : ChainBlockCtrl st cbId with
          | none => rw [hcc] at hl; exact absurd hl (by simp)
          | some p =>
            obtain ⟨nid, stC⟩ := p
            rw [hcc] at hl
            obtain ⟨hnid, hstoreC, hgmC, hstepC⟩ := chain_ctrl_step h hsc hnx hcc
            obtain ⟨mm, hgm⟩ : ∃ mm, st.gmeta = some mm := by
              cases hgmc : st.gmeta with
              | none =>
                exfalso
                unfold ChainBlockCtrl get_next_free_id at hcc
                rw [hgmc] at hcc
                exact absurd hcc (by simp [bind, Option.bind])
              | some mm => exact ⟨mm, rfl⟩
            have hscn : stC.store nid = .ctrl ⟨0, cbId, 0, 0, 0, []⟩ := by
              rw [hstoreC, hnid]
              rw [upd_ne _ _ _ _ (by omega : nf ≠ cbId), upd_self]
            replace hl : (match ctrl_update_header stC nid
                (fun hdr => { hdr with start := c.start + 1, directory := c.directory }) with
              | none => none
              | some st2 => fwriteLoop fuel st2 nid a b) = some (res, stF) := hl
            rw [ctrl_update_header_of hscn _] at hl
            replace hl : fwriteLoop fuel ({ stC with store := upd stC.store nid (.ctrl ⟨0, cbId, 0, c.directory, c.start + 1, []⟩) } : State) nid a b = some (res, stF) := hl
            cases hl2 : fwriteLoop fuel ({ stC with store := upd stC.store nid (.ctrl ⟨0, cbId, 0, c.directory, c.start + 1, []⟩) } : State) nid a b with
            | none => rw [hl2] at hl; exact absurd hl (by simp)
            | some q =>
              rw [hl2] at hl
              obtain ⟨res2, stF2⟩ := q
              obtain ⟨hr2, hsf2⟩ : res2 = res ∧ stF2 = stF := by
                cases hl; exact ⟨rfl, rfl⟩
              have hstepU : StepInv ({ stC with store := upd stC.store nid (.ctrl ⟨0, cbId, 0, c.directory, c.start + 1, []⟩) } : State) (nf + 1) := by
                refine stepInv_upd_g hstepC ⟨_, by rw [hgmC, hgm]; rfl⟩ ?_
                exact hstepC.2.2.ctrlSetHdr hscn rfl rfl rfl
              obtain ⟨nf2, hle2, hstep2, hfound2⟩ := ih _ nid (nf + 1) res2 stF2 hstepU hl2
              refine ⟨nf2, by omega, by rw [← hsf2]; exact hstep2, ?_⟩
              intro did cb2 hres
              rw [hr2] at hfound2
              exact hfound2 did cb2 hres

/-- With `g_meta` null, the location loop can only pass through its
non-allocating branches, which never write to the store. -/
theorem fwriteLoop_gmeta_none {a b : Nat} : ∀ (fuel : Nat) (st : State) (cbId : Nat)
    (res : LoopRes) (stF : State), st.gmeta = none →
    fwriteLoop fuel st cbId a b = some (res, stF) →
    stF = st ∧ (∀ did cb2, res = .found did cb2 → did ≠ 0) := by
  intro fuel
  induction fuel with
  | zero => intro st cbId res stF _ hl; exact absurd hl (by simp [fwriteLoop])
  | succ fuel ih =>
    intro st cbId res stF hgm hl
    unfold fwriteLoop at hl
    cases hgc : getCtrl st cbId with
    | none => rw [hgc] at hl; exact absurd hl (by simp)
    | some c =>
      rw [hgc] at hl
      replace hl : (if usub64 a c.start = 0 then
          (if c.find b (blobSize (.ctrl c)) = 0 then
            (match get_next_free_id st with
             | none => none
             | some (nid, st1) =>
               match ctrl_append st1 cbId nid with
               | none => none
               | some (fst, st2) => some (.found nid cbId, st2))
           else some (.found (c.find b (blobSize (.ctrl c))) cbId, st))
        else if usub64 a c.start < 0 then
          (if c.prev = 0 then some (.errPrev cbId, st) else fwriteLoop fuel st c.prev a b)
        else if c.next ≠ 0 then fwriteLoop fuel st c.next a b
        else match ChainBlockCtrl st cbId with
          | none => none
          | some (nid, st1) =>
            match ctrl_update_header st1 nid
                (fun hdr => { hdr with start := c.start + 1, directory := c.directory }) with
            | none => none
            | some st2 => fwriteLoop fuel st2 nid a b) = some (res, stF) := hl
      by_cases hdel : usub64 a c.start = 0
      . rw [if_pos hdel] at hl
        by_cases hdid : c.find b (blobSize (.ctrl c)) = 0
        . rw [if_pos hdid] at hl
          unfold get_next_free_id at hl
          rw [hgm] at hl
          exact absurd hl (by simp)
        . rw [if_neg hdid] at hl
          obtain ⟨h1, h2⟩ : LoopRes.found (c.find b (blobSize (.ctrl c))) cbId = res ∧
              st = stF := by
            cases hl; exact ⟨rfl, rfl⟩
          refine ⟨h2.symm, ?_⟩
          intro did cb2 hres
          rw [← h1] at hres
          cases hres
          exact hdid
      . rw [if_neg hdel, if_neg (Nat.not_lt_zero _)] at hl
        by_cases hnx : c.next ≠ 0
        . rw [if_pos hnx] at hl
          exact ih st c.next res stF hgm hl
        . rw [if_neg hnx] at hl
          unfold ChainBlockCtrl get_next_free_id at hl
          rw [hgm] at hl
          exact absurd hl (by simp [bind, Option.bind])

theorem putData_inv {st : State} {did : Nat} {bytes2 : List Nat} {count : Nat}
    {stream : FILE} {cbId : Nat} {ret : Int} {stF : State} {fF : FILE}
    (hInv : Inv st)
    (hwr : ∀ b2, Inv { st with store := upd st.store did (.data b2) })
    (h : putData st did bytes2 count stream cbId = some (ret, stF, fF)) : Inv stF := by
  unfold putData at h
  by_cases hc : MaxBlobSize < bytes2.length
  · rw [if_pos hc] at h
    obtain ⟨_, h2, _⟩ : (-2 : Int) = ret ∧ st = stF ∧
        ({ stream with cb := cbId } : FILE) = fF := by
      cases h; exact ⟨rfl, rfl, rfl⟩
    rw [← h2]
    exact hInv
  · rw [if_neg hc] at h
    obtain ⟨_, h2, _⟩ : (count : Int) = ret ∧
        ({ st with store := upd st.store did (.data bytes2) } : State) = stF ∧
        ({ stream with position := stream.position + count, cb := cbId } : FILE) = fF := by
      cases h; exact ⟨rfl, rfl, rfl⟩
    rw [← h2]
    exact hwr bytes2

/-- A completed `fwrite` preserves the chain invariant: the location loop only
walks, chains fresh tail blocks, or records a fresh data-blob id, and the data
write itself touches a headerless blob. -/
theorem fwrite_inv {fuel : Nat} {st : State} {stream : FILE} {buf : List Nat}
    {ret : Int} {stF : State} {fF : FILE} (h : Inv st)
    (hw : fwriteS fuel st stream buf = some (ret, stF, fF)) : Inv stF := by
  unfold fwriteS at hw
  by_cases hov : MaxBlobSize < stream.position % MaxBlobSize + buf.length
  . rw [if_pos hov] at hw
    obtain ⟨_, h2, _⟩ : (-1 : Int) = ret ∧ st = stF ∧ stream = fF := by
      cases hw; exact ⟨rfl, rfl, rfl⟩
    rw [← h2]
    exact h
  . rw [if_neg hov] at hw
    cases hl : fwriteLoop fuel st stream.cb (stream.position / bytes_per_ctrl_block)
        (stream.position % MaxBlobSize) with
    | none => rw [hl] at hw; exact absurd hw (by simp)
    | some p =>
      obtain ⟨res, st1⟩ := p
      rw [hl] at hw
      cases res with
      | errPrev cbId =>
        obtain ⟨_, h2, _⟩ : (-1 : Int) = ret ∧ st1 = stF ∧
            ({ stream with cb := cbId } : FILE) = fF := by
          cases hw; exact ⟨rfl, rfl, rfl⟩
        rw [← h2]
        cases hnf : stateNF st with
        | some nf =>
          obtain ⟨nf1, hle, hstep1, hfound⟩ :=
            fwriteLoop_step fuel st stream.cb nf (.errPrev cbId) st1 (stepInv_of_inv h hnf) hl
          exact inv_of_stepInv hstep1
        | none =>
          obtain ⟨hst1, _⟩ := fwriteLoop_gmeta_none fuel st stream.cb (.errPrev cbId) st1
            (gmeta_none_of_stateNF_none hnf) hl
          rw [hst1]
          exact h
      | found did cbId =>
        replace hw : (match st1.store did with
          | BlobContent.empty => fwriteS.fwriteData st1 did []
              (stream.position % MaxBlobSize) buf buf.length stream cbId
          | BlobContent.data bytes => fwriteS.fwriteData st1 did bytes
              (stream.position % MaxBlobSize) buf buf.length stream cbId
          | x => none) = some (ret, stF, fF) := hw
        have hWr : ∀ bytes2, (st1.store did = .empty ∨ ∃ b0, st1.store did = .data b0) →
            Inv { st1 with store := upd st1.store did (.data bytes2) } := by
          intro bytes2 hsd
          cases hnf : stateNF st with
          | some nf =>
            obtain ⟨nf1, hle, hstep1, hfound⟩ :=
              fwriteLoop_step fuel st stream.cb nf (.found did cbId) st1
                (stepInv_of_inv h hnf) hl
            obtain ⟨hd0, hdlt⟩ := hfound did cbId rfl
            refine inv_of_stepInv (stepInv_upd hstep1 hd0 ?_)
            exact hstep1.2.2.dataWrite hsd hdlt bytes2
          | none =>
            obtain ⟨hst1, hd0⟩ := fwriteLoop_gmeta_none fuel st stream.cb (.found did cbId)
              st1 (gmeta_none_of_stateNF_none hnf) hl
            refine inv_of_stateNF_none ?_
            rw [stateNF_congr (show ({ st1 with store := upd st1.store did (.data bytes2) }
                : State).gmeta = st1.gmeta from rfl)
              (show ({ st1 with store := upd st1.store did (.data bytes2) } : State).store 0 =
                st1.store 0 from upd_ne _ _ _ _ (fun hc => (hd0 did cbId rfl) hc.symm))]
            rw [stateNF_congr (show st1.gmeta = st.gmeta from by rw [hst1])
              (show st1.store 0 = st.store 0 from by rw [hst1])]
            exact hnf
        have hInv1 : Inv st1 := by
          cases hnf : stateNF st with
          | some nf =>
            obtain ⟨nf1, hle, hstep1, hfound⟩ :=
              fwriteLoop_step fuel st stream.cb nf (.found did cbId) st1
                (stepInv_of_inv h hnf) hl
            exact inv_of_stepInv hstep1
          | none =>
            obtain ⟨hst1, _⟩ := fwriteLoop_gmeta_none fuel st stream.cb (.found did cbId)
              st1 (gmeta_none_of_stateNF_none hnf) hl
            rw [hst1]
            exact h
        cases hsd : st1.store did with
        | empty =>
          rw [hsd] at hw
          unfold fwriteS.fwriteData at hw
          exact putData_inv hInv1 (fun b2 => hWr b2 (Or.inl hsd)) hw
        | data bytes =>
          rw [hsd] at hw
          unfold fwriteS.fwriteData at hw
          exact putData_inv hInv1 (fun b2 => hWr b2 (Or.inr ⟨bytes, hsd⟩)) hw
        | meta m => rw [hsd] at hw; exact absurd hw (by simp)
        | ctrl c => rw [hsd] at hw; exact absurd hw (by simp)
        | dir d => rw [hsd] at hw; exact absurd hw (by simp)

/-- A completed `finitialize`, run while the system is not initialised (the
spec's lifecycle: `g_meta` exists only between init and finalize), preserves
the chain invariant: it only ever writes the meta blob 0. -/
theorem finit_inv {st stF : State} (h : Inv st) (hpre : st.gmeta = none)
    (hf : finitializeS st = some stF) : Inv stF := by
  unfold finitializeS at hf
  cases h0 : st.store 0 with
  | empty =>
    rw [h0] at hf
    obtain h2 : ({ st with
        store := upd st.store 0 (.meta ⟨diskMagic, 1, DIR_HEADS + 1⟩),
        gmeta := some ⟨diskMagic, 1, DIR_HEADS + 1⟩ } : State) = stF := by
      cases hf; rfl
    have hnf : stateNF st = some (DIR_HEADS + 1) := by
      unfold stateNF; rw [hpre, h0]
    obtain ⟨hge, hsi⟩ := h _ hnf
    rw [← h2]
    refine @inv_of_stepInv _ (DIR_HEADS + 1) ⟨?_, le_rfl, ?_⟩
    . unfold stateNF
      rfl
    . exact hsi.updMeta (by omega) _
  | data b =>
    rw [h0] at hf
    replace hf : (if b.length < sizeofMETA_DISK then
        some ({ st with store := upd st.store 0 (.meta ⟨diskMagic, 1, DIR_HEADS + 1⟩), gmeta := some ⟨diskMagic, 1, DIR_HEADS + 1⟩ } : State)
      else none) = some stF := hf
    by_cases hlen : b.length < sizeofMETA_DISK
    . rw [if_pos hlen] at hf
      obtain h2 : ({ st with
          store := upd st.store 0 (.meta ⟨diskMagic, 1, DIR_HEADS + 1⟩),
          gmeta := some ⟨diskMagic, 1, DIR_HEADS + 1⟩ } : State) = stF := by
        cases hf; rfl
      have hnf : stateNF st = some (DIR_HEADS + 1) := by
        unfold stateNF
        rw [hpre, h0]
        show (if b.length < sizeofMETA_DISK then some (DIR_HEADS + 1) else none) =
          some (DIR_HEADS + 1)
        rw [if_pos hlen]
      obtain ⟨hge, hsi⟩ := h _ hnf
      rw [← h2]
      refine @inv_of_stepInv _ (DIR_HEADS + 1) ⟨?_, le_rfl, ?_⟩
      . unfold stateNF
        rfl
      . exact hsi.updMeta (by omega) _
    . rw [if_neg hlen] at hf
      exact absurd hf (by simp)
  | meta m =>
    rw [h0] at hf
    replace hf : (if m.magic = diskMagic ∧ m.version = 1 ∧ DIR_HEADS < m.next_free then
        some ({ st with gmeta := some m } : State)
      else none) = some stF := hf
    by_cases hval : m.magic = diskMagic ∧ m.version = 1 ∧ DIR_HEADS < m.next_free
    . rw [if_pos hval] at hf
      obtain h2 : ({ st with gmeta := some m } : State) = stF := by
        cases hf; rfl
      have hnf : stateNF st = some m.next_free := by
        unfold stateNF; rw [hpre, h0]
      obtain ⟨hge, hsi⟩ := h _ hnf
      rw [← h2]
      refine @inv_of_stepInv _ m.next_free ⟨?_, hge, hsi⟩
      unfold stateNF
      rfl
    . rw [if_neg hval] at hf
      exact absurd hf (by simp)
  | ctrl c => rw [h0] at hf; exact absurd hf (by simp)
  | dir d => rw [h0] at hf; exact absurd hf (by simp)

/-- A completed `ffinalize` preserves the chain invariant: it writes the
in-memory meta into blob 0 and clears `g_meta`; the governing bound is then
re-read from blob 0 and is unchanged. -/
theorem ffin_inv {st stF : State} (h : Inv st) (hf : ffinalizeS st = some stF) : Inv stF := by
  unfold ffinalizeS at hf
  cases hg : st.gmeta with
  | none => rw [hg] at hf; exact absurd hf (by simp)
  | some m =>
    rw [hg] at hf
    obtain h2 : ({ st with store := upd st.store 0 (.meta m), gmeta := none } : State) = stF := by
      cases hf; rfl
    have hnf : stateNF st = some m.next_free := by
      unfold stateNF; rw [hg]
    obtain ⟨hge, hsi⟩ := h _ hnf
    rw [← h2]
    refine @inv_of_stepInv _ m.next_free ⟨?_, hge, hsi.updMeta (by omega) m⟩
    unfold stateNF
    show (match upd st.store 0 (.meta m) 0 with
      | .meta m => some m.next_free
      | .empty => some (DIR_HEADS + 1)
      | .data b => if b.length < sizeofMETA_DISK then some (DIR_HEADS + 1) else none
      | _ => none) = some m.next_free
    rw [upd_self]

/-- With `g_meta` null, create-mode lookup cannot reach its allocation path,
so a completed call went through the found path and returns a nonnull node. -/
theorem gcb_create_gmeta_none {fuel : Nat} {st : State} {dirId : Nat} {name : String}
    {r : Option Nat} {st1 : State} (hgm : st.gmeta = none)
    (hg : GetControlBlob fuel st dirId name CbAction.FileCreate = some (r, st1)) :
    r ≠ none := by
  unfold GetControlBlob at hg
  cases hw : gcbWalk fuel st dirId name with
  | none => rw [hw] at hg; exact absurd hg (by simp [bind, Option.bind])
  | some p =>
    obtain ⟨cb, tailId⟩ := p
    rw [hw] at hg
    simp only [bind, Option.bind, pure] at hg
    by_cases hcb : cb ≠ 0
    . rw [if_pos hcb] at hg
      obtain ⟨h1, h2⟩ : (some cb : Option Nat) = r ∧ maybe_init_ctrl st cb = st1 := by
        cases hg; exact ⟨rfl, rfl⟩
      rw [← h1]
      simp
    . rw [if_neg hcb] at hg
      rw [if_neg (by simp : ¬ (CbAction.FileCreate = CbAction.FileMustExist))] at hg
      unfold get_next_free_id at hg
      rw [hgm] at hg
      exact absurd hg (by simp [bind, Option.bind])

/-- `ChainBlock<ControlBlock>` computed forward from the raw preconditions
(live allocator, control block at the tail, fresh slot empty). -/
theorem chain_ctrl_run {st : State} {m : META_DISK} {t : Nat} {c : ControlBlockC}
    (hgm : st.gmeta = some m) (ht : st.store t = .ctrl c) (htm : t ≠ m.next_free)
    (hfree : st.store m.next_free = .empty) :
    ChainBlockCtrl st t = some (m.next_free,
      { store := upd (upd st.store m.next_free (.ctrl ⟨0, t, 0, 0, 0, []⟩)) t (.ctrl { c with next := m.next_free }),
        gmeta := some { m with next_free := m.next_free + 1 } }) := by
  have hga : get_next_free_id st =
      some (m.next_free, { st with gmeta := some { m with next_free := m.next_free + 1 } }) := by
    unfold get_next_free_id; rw [hgm]
  have hInit : maybe_init_ctrl
        ({ st with gmeta := some { m with next_free := m.next_free + 1 } } : State) m.next_free =
      { store := upd st.store m.next_free (.ctrl ⟨0, 0, 0, 0, 0, []⟩),
        gmeta := some { m with next_free := m.next_free + 1 } } := by
    rw [maybe_init_ctrl_of_empty (show
      ({ st with gmeta := some { m with next_free := m.next_free + 1 } } : State).store
        m.next_free = .empty from hfree)]
  have hPrev := ctrl_set_prev_of (show
      ({ store := upd st.store m.next_free (.ctrl ⟨0, 0, 0, 0, 0, []⟩),
         gmeta := some { m with next_free := m.next_free + 1 } } : State).store m.next_free =
      .ctrl ⟨0, 0, 0, 0, 0, []⟩ from upd_self _ _ _) t
  have hCt : upd (upd st.store m.next_free (.ctrl ⟨0, 0, 0, 0, 0, []⟩)) m.next_free
      (.ctrl { (⟨0, 0, 0, 0, 0, []⟩ : ControlBlockC) with prev := t }) t = .ctrl c := by
    rw [upd_ne _ _ _ _ htm, upd_ne _ _ _ _ htm, ht]
  have hNext := ctrl_set_next_of (show
      ({ store := upd (upd st.store m.next_free (.ctrl ⟨0, 0, 0, 0, 0, []⟩)) m.next_free
           (.ctrl { (⟨0, 0, 0, 0, 0, []⟩ : ControlBlockC) with prev := t }),
         gmeta := some { m with next_free := m.next_free + 1 } } : State).store t =
      .ctrl c from hCt) m.next_free
  unfold ChainBlockCtrl
  rw [hga]
  simp only [bind, Option.bind]
  rw [hInit, hPrev]
  simp only [Option.bind]
  rw [hNext]
  simp only [Option.bind, pure]
  rw [Option.some.injEq, Prod.mk.injEq]
  refine ⟨rfl, ?_⟩
  show ({ store := upd (upd (upd st.store m.next_free (.ctrl ⟨0, 0, 0, 0, 0, []⟩)) m.next_free (.ctrl ⟨0, t, 0, 0, 0, []⟩)) t (.ctrl { c with next := m.next_free }),
          gmeta := some { m with next_free := m.next_free + 1 } } : State) = _
  rw [upd_upd_same]

/-- The `fwrite` location loop started below the cached block's `start` never
terminates (within any fuel whose exhaustion keeps the chained `start` values
below the uint64 wraparound): the unsigned `delta < 0` test can never fire, so
instead of walking `prev` the loop keeps chaining fresh tail blocks. -/
theorem c4_loop_stuck : ∀ (fuel : Nat) (st : State) (cbId : Nat) (m : META_DISK)
    (c : ControlBlockC), st.gmeta = some m → getCtrl st cbId = some c →
    0 < c.start → c.start + fuel ≤ U64 → c.next = 0 → cbId < m.next_free →
    (∀ i, m.next_free ≤ i → st.store i = .empty) →
    fwriteLoop fuel st cbId 0 0 = none := by
  intro fuel
  induction fuel with
  | zero => intro st cbId m c _ _ _ _ _ _ _; simp [fwriteLoop]
  | succ fuel ih =>
    intro st cbId m c hgm hgc hs hsb hnx hclt hfree
    have hsc : st.store cbId = .ctrl c := getCtrl_inv hgc
    have hU : U64 = 18446744073709551616 := by norm_num [U64]
    have hdel : ¬ (usub64 0 c.start = 0) := by
      unfold usub64
      rw [hU] at hsb ⊢
      omega
    unfold fwriteLoop
    rw [hgc]
    show (if usub64 0 c.start = 0 then
        (if c.find 0 (blobSize (.ctrl c)) = 0 then
          (match get_next_free_id st with
           | none => none
           | some (nid, st1) =>
             match ctrl_append st1 cbId nid with
             | none => none
             | some (fst, st2) => some (.found nid cbId, st2))
         else some (.found (c.find 0 (blobSize (.ctrl c))) cbId, st))
      else if usub64 0 c.start < 0 then
        (if c.prev = 0 then some (.errPrev cbId, st) else fwriteLoop fuel st c.prev 0 0)
      else if c.next ≠ 0 then fwriteLoop fuel st c.next 0 0
      else match ChainBlockCtrl st cbId with
        | none => none
        | some (nid, st1) =>
          match ctrl_update_header st1 nid
              (fun hdr => { hdr with start := c.start + 1, directory := c.directory }) with
          | none => none
          | some st2 => fwriteLoop fuel st2 nid 0 0) = none
    rw [if_neg hdel, if_neg (Nat.not_lt_zero _),
        if_neg (show ¬ (c.next ≠ 0) from by rw [hnx]; simp)]
    have hcm : cbId ≠ m.next_free := by omega
    rw [chain_ctrl_run hgm hsc hcm (hfree m.next_free le_rfl)]
    show (match ctrl_update_header
        ({ store := upd (upd st.store m.next_free (.ctrl ⟨0, cbId, 0, 0, 0, []⟩)) cbId (.ctrl { c with next := m.next_free }),
           gmeta := some { m with next_free := m.next_free + 1 } } : State) m.next_free
        (fun hdr => { hdr with start := c.start + 1, directory := c.directory }) with
      | none => none
      | some st2 => fwriteLoop fuel st2 m.next_free 0 0) = none
    have hscn : ({ store := upd (upd st.store m.next_free (.ctrl ⟨0, cbId, 0, 0, 0, []⟩)) cbId (.ctrl { c with next := m.next_free }),
                   gmeta := some { m with next_free := m.next_free + 1 } } : State).store m.next_free =
        .ctrl ⟨0, cbId, 0, 0, 0, []⟩ := by
      show upd (upd st.store m.next_free (.ctrl ⟨0, cbId, 0, 0, 0, []⟩)) cbId
          (.ctrl { c with next := m.next_free }) m.next_free = _
      rw [upd_ne _ _ _ _ (Ne.symm hcm), upd_self]
    rw [ctrl_update_header_of hscn _]
    show fwriteLoop fuel
      ({ store := upd (upd (upd st.store m.next_free (.ctrl ⟨0, cbId, 0, 0, 0, []⟩)) cbId (.ctrl { c with next := m.next_free })) m.next_free (.ctrl ⟨0, cbId, 0, c.directory, c.start + 1, []⟩),
         gmeta := some { m with next_free := m.next_free + 1 } } : State) m.next_free 0 0 = none
    refine ih _ m.next_free ⟨m.magic, m.version, m.next_free + 1⟩
      ⟨0, cbId, 0, c.directory, c.start + 1, []⟩ rfl
      (getCtrl_of (upd_self _ _ _)) (Nat.succ_pos _) (by show c.start + 1 + fuel ≤ U64; omega) rfl
      (Nat.lt_succ_self _) ?_
    intro i hi
    replace hi : m.next_free + 1 ≤ i := hi
    show upd (upd (upd st.store m.next_free (.ctrl ⟨0, cbId, 0, 0, 0, []⟩)) cbId
        (.ctrl { c with next := m.next_free })) m.next_free
        (.ctrl ⟨0, cbId, 0, c.directory, c.start + 1, []⟩) i = .empty
    rw [upd_ne _ _ _ _ (by omega : i ≠ m.next_free),
        upd_ne _ _ _ _ (by omega : i ≠ cbId),
        upd_ne _ _ _ _ (by omega : i ≠ m.next_free)]
    exact hfree i (by omega)

/-! ## The claims -/

/-- C1: the public write-then-read round-trip does not hold: `fwrite`
succeeds (here: two bytes at position 0 land in a freshly allocated data
blob), but `fseek` and `fread` are unimplemented stubs returning -1, so the
read-back buffer keeps its old contents instead of the bytes written. -/
theorem c1_write_read_roundtrip_broken :
    fwriteS 4 stC1 ⟨0, 77⟩ [104, 105] = some (2, stC1post, ⟨2, 77⟩) ∧
    fseekS ⟨2, 77⟩ 0 0 = -1 ∧
    freadS stC1post ⟨2, 77⟩ [0, 0] 2 = (-1, [0, 0]) ∧
    ([0, 0] : List Nat) ≠ [104, 105] :=
  ⟨rfl, rfl, rfl, by decide⟩

/-- C2: `fwrite` does not chunk a write across data blobs: a write whose
`(position mod MaxBlobSize) + count` exceeds `MaxBlobSize` is rejected up
front with -1 (the source's `$$ fixme. support split writes.` guard), state
and cursor untouched, instead of succeeding as the spec requires. -/
theorem c2_split_writes_rejected :
    fwriteS 9 stC3 ⟨MaxBlobSize - 1, 77⟩ [7, 7] = some (-1, stC3, ⟨MaxBlobSize - 1, 77⟩) ∧
    MaxBlobSize < (MaxBlobSize - 1) % MaxBlobSize + 2 :=
  ⟨rfl, by decide⟩

/-- C3: the data-blob slot is not `(p mod BYTES_PER_CB) / MaxBlobSize`:
`ControlBlock::find` receives `position mod MaxBlobSize`, so the quotient is
always 0 and every offset inside a control block's range aliases slot 0.  At
`p = MaxBlobSize` the spec's slot is 1, yet the write lands in the slot-0
blob 90 (overwritten in place, no allocation). -/
theorem c3_slot_selection_ignores_position :
    fwriteS 4 stC3 ⟨MaxBlobSize, 77⟩ [9] = some (1, stC3post, ⟨MaxBlobSize + 1, 77⟩) ∧
    stC3post.store 90 = .data [9] ∧
    stC3post.gmeta = some mA ∧
    MaxBlobSize % bytes_per_ctrl_block / MaxBlobSize = 1 ∧
    MaxBlobSize % MaxBlobSize / MaxBlobSize = 0 :=
  ⟨rfl, rfl, rfl, by decide, by decide⟩

/-- C4: locating the control block never walks `prev`: `delta` is unsigned,
so the `delta < 0` branch is dead, and a cursor below the cached block's
`start` (here: position 0 cached on block 78 with `start = 1`, whose `prev`
is block 77 with `start = 0`) makes the loop chain fresh tail blocks forever
instead — `fwrite` returns for no fuel below the uint64 wrap of `start`. -/
theorem c4_locate_never_walks_prev (fuel : Nat) (hfuel : fuel ≤ 2 ^ 63) :
    fwriteS fuel stC4 ⟨0, 78⟩ [1] = none := by
  have hl : fwriteLoop fuel stC4 78 0 0 = none := by
    refine c4_loop_stuck fuel stC4 78 mA ⟨0, 77, 0, 5, 1, []⟩ rfl rfl (by decide) ?_ rfl
      (by decide) ?_
    · show 1 + fuel ≤ U64
      have hU : U64 = 18446744073709551616 := by norm_num [U64]
      omega
    · intro i hi
      replace hi : (1025 : Nat) ≤ i := hi
      show (if i = 77 then BlobContent.ctrl ⟨0, 0, 78, 5, 0, []⟩
        else if i = 78 then BlobContent.ctrl ⟨0, 77, 0, 5, 1, []⟩ else BlobContent.empty) =
        BlobContent.empty
      rw [if_neg (by omega : ¬ (i = 77)), if_neg (by omega : ¬ (i = 78))]
  show (match fwriteLoop fuel stC4 78 0 0 with
    | none => none
    | some (.errPrev cbId, st1) => some ((-1 : Int), st1, ({ position := 0, cb := cbId } : FILE))
    | some (.found did cbId, st1) =>
      match st1.store did with
      | .empty => fwriteS.fwriteData st1 did [] 0 [1] 1 ⟨0, 78⟩ cbId
      | .data bytes => fwriteS.fwriteData st1 did bytes 0 [1] 1 ⟨0, 78⟩ cbId
      | _ => none) = none
  rw [hl]

theorem c4_locate_never_walks_prev_witness :
    3 ≤ 2 ^ 63 ∧ fwriteS 3 stC4 ⟨0, 78⟩ [1] = none :=
  ⟨by decide, c4_locate_never_walks_prev 3 (by decide)⟩

/-- C5: `ftell` does not report the cursor: after a successful 12-byte write
from position 0 the handle's position is 12, but `ftell` is a stub returning
the error value -1 for every handle. -/
theorem c5_ftell_returns_error_not_position :
    (fwriteS 4 stC1 ⟨0, 77⟩ (List.replicate 12 104)).map (fun r => (r.1, r.2.2)) =
      some (12, (⟨12, 77⟩ : FILE)) ∧
    ftellS ⟨12, 77⟩ = -1 ∧ (-1 : Int) ≠ 12 :=
  ⟨by decide, rfl, by decide⟩

/-- C6: the directory-head id is `fnv1a32(name) mod 1024 + 1`, with the
FNV-1a hash over the name's bytes (XOR the byte, then multiply by the prime,
starting from the offset basis): the code's `fnv32` matches the spec's two
pinned values, the empty string hashing to the offset basis `0x811c9dc5` and
`"foobar"` to `0xbf9cf968`. -/
theorem c6_dir_head_is_fnv1a_mod_1024_plus_1 :
    (∀ name : String, name_to_dir_id name = fnv32 name % 1024 + 1) ∧
    fnv32 "" = 0x811c9dc5 ∧
    fnv32 "foobar" = 0xbf9cf968 := by
  refine ⟨fun name => ?_, by decide, by decide⟩
  show fnv32 name % DIR_HEADS + META_RESERVED = fnv32 name % 1024 + 1
  norm_num [DIR_HEADS, META_RESERVED]

theorem c6_dir_head_is_fnv1a_mod_1024_plus_1_witness :
    name_to_dir_id "foobar" = fnv32 "foobar" % 1024 + 1 :=
  c6_dir_head_is_fnv1a_mod_1024_plus_1.1 "foobar"

/-- The chain invariant holds in the pristine state: no blob is a block. -/
theorem invStEmpty : Inv stEmpty := by
  intro nf hnf
  replace hnf : (some (DIR_HEADS + 1) : Option Nat) = some nf := hnf
  obtain rfl := Option.some.inj hnf
  refine ⟨le_rfl, ?_⟩
  have hb : ∀ x, isBlock (stEmpty.store x) → False := fun x hx => hx
  refine ⟨?_, ?_, ?_, ?_, ?_, ?_, ?_, ?_, ?_, ?_, ?_, ?_⟩
  · intro x y _ _ hbx _; exact (hb x hbx).elim
  · intro x hbx _; exact (hb x hbx).elim
  · intro x hbx _; exact (hb x hbx).elim
  · intro x hbx; exact (hb x hbx).elim
  · intro x hbx; exact (hb x hbx).elim
  · intro x hbx; exact (hb x hbx).elim
  · intro x hbx _; exact (hb x hbx).elim
  · intro x hbx _; exact (hb x hbx).elim
  · intro x j hj
    replace hj : j ∈ ([] : List Nat) := hj
    cases hj
  · intro i _; rfl
  · intro i _; rfl
  · intro x e he
    replace he : e ∈ ([] : List FileEntryC) := he
    cases he

/-- C7: after every completed public API call the blob store's chains remain
consistently doubly linked: `next`/`prev` links pair up exactly
(`StoreInv.linked`), chain heads (directory-head blobs and the control blocks
referenced by directory entries) keep `prev = 0`, and links always point from
older to newer blobs, so every chain terminates in a tail with `next = 0`.
`finitialize` is taken at its place in the spec's lifecycle (section 5: state
is created at init and destroyed at finalize), i.e. with `g_meta` null; every
other call is unconditional. -/
theorem c7_api_calls_preserve_chain_invariant (op : Op) (st stF : State)
    (hpre : opPre op st) (hInv : Inv st) (happ : applyOp op st = some stF) : Inv stF := by
  cases op with
  | opFinit => exact finit_inv hInv hpre happ
  | opFfin => exact ffin_inv hInv happ
  | opFopen fuel name mode =>
    replace happ : (fopenS fuel st name mode).map (fun r => r.2) = some stF := happ
    cases hfo : fopenS fuel st name mode with
    | none => rw [hfo] at happ; exact absurd happ (by simp)
    | some p =>
      obtain ⟨r, st2⟩ := p
      rw [hfo] at happ
      obtain h2 : st2 = stF := Option.some.inj happ
      rw [← h2]
      exact fopen_inv hInv hfo
  | opFwrite fuel f buf =>
    replace happ : (fwriteS fuel st f buf).map (fun r => r.2.1) = some stF := happ
    cases hfw : fwriteS fuel st f buf with
    | none => rw [hfw] at happ; exact absurd happ (by simp)
    | some p =>
      obtain ⟨ret, st2, f2⟩ := p
      rw [hfw] at happ
      obtain h2 : st2 = stF := Option.some.inj happ
      rw [← h2]
      exact fwrite_inv hInv hfw
  | opFclose f =>
    obtain h2 : st = stF := by cases happ; rfl
    rw [← h2]; exact hInv
  | opFread f cnt =>
    obtain h2 : st = stF := by cases happ; rfl
    rw [← h2]; exact hInv
  | opFtell f =>
    obtain h2 : st = stF := by cases happ; rfl
    rw [← h2]; exact hInv
  | opFseek f off origin =>
    obtain h2 : st = stF := by cases happ; rfl
    rw [← h2]; exact hInv
  | opFremove name =>
    obtain h2 : st = stF := by cases happ; rfl
    rw [← h2]; exact hInv

theorem c7_api_calls_preserve_chain_invariant_witness : Inv stFresh :=
  c7_api_calls_preserve_chain_invariant Op.opFinit stEmpty stFresh rfl invStEmpty rfl

/-- C8: `ffinalize` writes the in-memory meta into blob 0 and a following
`finitialize` validates it and loads the very same meta back, leaving every
other blob untouched, so finalize-then-init restores the pre-finalize state;
and a first-ever `finitialize` (blob 0 still empty) writes the fresh meta
`(diskMagic, version 1, next_free = DIR_HEADS + 1)`. -/
theorem c8_finalize_init_roundtrip :
    (∀ (st st1 : State) (m : META_DISK), st.gmeta = some m → m.magic = diskMagic →
      m.version = 1 → DIR_HEADS < m.next_free → ffinalizeS st = some st1 →
      st1.gmeta = none ∧ st1.store 0 = .meta m ∧
      (∀ i, i ≠ 0 → st1.store i = st.store i) ∧
      finitializeS st1 = some { st1 with gmeta := some m }) ∧
    (∀ st : State, st.store 0 = .empty →
      finitializeS st = some { st with
        store := upd st.store 0 (.meta ⟨diskMagic, 1, DIR_HEADS + 1⟩),
        gmeta := some ⟨diskMagic, 1, DIR_HEADS + 1⟩ }) := by
  constructor
  · intro st st1 m hgm hmag hver hnf hfin
    unfold ffinalizeS at hfin
    rw [hgm] at hfin
    obtain rfl := Option.some.inj hfin
    refine ⟨rfl, upd_self st.store 0 (.meta m), fun i hi => upd_ne st.store 0 i (.meta m) hi, ?_⟩
    show (if m.magic = diskMagic ∧ m.version = 1 ∧ DIR_HEADS < m.next_free then
        some ({ store := upd st.store 0 (.meta m), gmeta := some m } : State)
      else none) =
      some ({ store := upd st.store 0 (.meta m), gmeta := some m } : State)
    rw [if_pos ⟨hmag, hver, hnf⟩]
  · intro st h0
    unfold finitializeS
    rw [h0]

theorem c8_finalize_init_roundtrip_witness :
    finitializeS stW8fin = some { stW8fin with gmeta := some mW } ∧
    finitializeS stEmpty = some { stEmpty with
      store := upd stEmpty.store 0 (.meta ⟨diskMagic, 1, DIR_HEADS + 1⟩),
      gmeta := some ⟨diskMagic, 1, DIR_HEADS + 1⟩ } :=
  ⟨(c8_finalize_init_roundtrip.1 stW8 stW8fin mW rfl rfl rfl (by decide) rfl).2.2.2,
   c8_finalize_init_roundtrip.2 stEmpty rfl⟩

/-- C9: `fremove` never removes anything: it is an unimplemented stub
returning -1 for every name, including a name present in its directory chain
(here `nameC9`, which `DirBlock::find` resolves to control blob 1500), where
the spec requires 0 and an in-place tombstone. -/
theorem c9_fremove_is_a_stub :
    DirBlockC.find dC9 nameC9 (blobSize (.dir dC9)) = 1500 ∧
    (∀ (st : State) (name : String), fremoveS st name = -1) ∧
    fremoveS ⟨fun i => if i = name_to_dir_id nameC9 then .dir dC9 else .empty, some mA⟩
      nameC9 = -1 :=
  ⟨by decide, fun _ _ => rfl, rfl⟩

theorem c9_fremove_is_a_stub_witness :
    fremoveS stC1 nameC9 = -1 :=
  c9_fremove_is_a_stub.2.1 stC1 nameC9

/-- The chain invariant holds in `stW10` (one empty dir-block at id 5). -/
theorem invStW10 : Inv stW10 := by
  intro nf hnf
  replace hnf : (some 1025 : Option Nat) = some nf := hnf
  obtain rfl := Option.some.inj hnf
  refine ⟨by decide, ?_⟩
  have hb : ∀ x, isBlock (stW10.store x) → x = 5 := by
    intro x hx
    by_cases h5 : x = 5
    · exact h5
    · exfalso
      have he : stW10.store x = .empty := by
        show (if x = 5 then BlobContent.dir ⟨0, 0, 0, []⟩ else BlobContent.empty) =
          BlobContent.empty
        rw [if_neg h5]
      rw [he] at hx
      exact hx
  refine ⟨?_, ?_, ?_, ?_, ?_, ?_, ?_, ?_, ?_, ?_, ?_, ?_⟩
  · intro x y _ _ hbx hby
    obtain rfl := hb x hbx
    obtain rfl := hb y hby
    decide
  · intro x hbx hnx
    obtain rfl := hb x hbx
    exact absurd hnx (by decide)
  · intro x hbx hpx
    obtain rfl := hb x hbx
    exact absurd hpx (by decide)
  · intro x hbx
    obtain rfl := hb x hbx
    decide
  · intro x hbx
    obtain rfl := hb x hbx
    decide
  · intro x hbx
    obtain rfl := hb x hbx
    decide
  · intro x hbx hnx
    obtain rfl := hb x hbx
    exact absurd hnx (by decide)
  · intro x hbx hpx
    obtain rfl := hb x hbx
    exact absurd hpx (by decide)
  · intro x j hj
    by_cases h5 : x = 5
    · subst h5
      replace hj : j ∈ ([] : List Nat) := hj
      cases hj
    · have he : stW10.store x = .empty := by
        show (if x = 5 then BlobContent.dir ⟨0, 0, 0, []⟩ else BlobContent.empty) =
          BlobContent.empty
        rw [if_neg h5]
      rw [he] at hj
      replace hj : j ∈ ([] : List Nat) := hj
      cases hj
  · intro i hi
    have hD : (DIR_HEADS : Nat) = 1024 := by decide
    show (if i = 5 then BlobContent.dir ⟨0, 0, 0, []⟩ else BlobContent.empty) =
      BlobContent.empty
    rw [if_neg (by omega : ¬ (i = 5))]
  · intro i _
    by_cases h5 : i = 5
    · subst h5; decide
    · show pOf (if i = 5 then BlobContent.dir ⟨0, 0, 0, []⟩ else BlobContent.empty) = 0
      rw [if_neg h5]
      rfl
  · intro x e he
    by_cases h5 : x = 5
    · subst h5
      replace he : e ∈ ([] : List FileEntryC) := he
      cases he
    · have hee : stW10.store x = .empty := by
        show (if x = 5 then BlobContent.dir ⟨0, 0, 0, []⟩ else BlobContent.empty) =
          BlobContent.empty
        rw [if_neg h5]
      rw [hee] at he
      replace he : e ∈ ([] : List FileEntryC) := he
      cases he

/-- C10: in create mode the null return after chaining a new dir-block is
unreachable: a freshly chained dir-block holds only its 24-byte header, and
appending one 520-byte `FileEntry` always fits in a 256 KiB blob, so whenever
the call completes (allocator and every blob `Put` succeeded), `GetControlBlob`
with `FileCreate` on a chain-invariant state hands back a control node. -/
theorem c10_create_mode_returns_control_node (fuel : Nat) (st : State) (dirId : Nat)
    (name : String) (r : Option Nat) (stF : State) (hInv : Inv st)
    (hg : GetControlBlob fuel st dirId name CbAction.FileCreate = some (r, stF)) :
    r ≠ none := by
  cases hnf : stateNF st with
  | some nf => exact (gcb_step (stepInv_of_inv hInv hnf) hg).2 rfl
  | none => exact gcb_create_gmeta_none (gmeta_none_of_stateNF_none hnf) hg

theorem c10_create_mode_returns_control_node_witness : (some 1025 : Option Nat) ≠ none :=
  c10_create_mode_returns_control_node 2 stW10 5 "a" (some 1025) stW10post invStW10 rfl

end FsBlob
